import Mathlib

/-!
# Verification of core dulwich algorithms

A shallow embedding, in Lean 4, of the central data structures and
algorithms of the dulwich Git implementation: the object codec
(`dulwich/objects.py`), the pack index and delta codec
(`dulwich/pack.py`), the reference store (`dulwich/refs.py`), the
pkt-line framer (`dulwich/protocol.py`) and the missing-objects finder
(`dulwich/object_store.py`).

Byte strings are modelled as `List Nat` (each element a byte value);
fallible operations return `Option` or a small error sum.  Definitions
follow the Python source where the source carries a body; where the
source only declares a function (body elided), the definition is
modelled from the specification and says so in its doc comment.
-/

/-- A byte string: a list of byte values. -/
abbrev ByteStr := List Nat

/-- All elements of a byte string are bytes (< 256). -/
def IsBytes (s : ByteStr) : Prop := ∀ c ∈ s, c < 256

/- ---------------------------------------------------------------------
   PackIndex.__eq__  (dulwich/pack.py, lines 245-251, real code)

   def __eq__(self, other):
       if not isinstance(other, PackIndex):
           return False
       for (name1, _, _), (name2, _, _) in zip(self.iterentries(), other.iterentries()):
           if name1 != name2:
               return False
       return True
   --------------------------------------------------------------------- -/

/-- A pack index entry: object name (binary SHA), offset in the pack
file, and CRC32 checksum, as produced by `PackIndex.iterentries`. -/
abbrev PackIndexEntry := ByteStr × Nat × Nat

/-- The sequence of object names of a pack index's entries. -/
def packIndexEntryNames (a : List PackIndexEntry) : List ByteStr :=
  a.map (·.1)

/-- `PackIndex.__eq__` from `dulwich/pack.py`: zip the two entry
iterators and compare only the object names pairwise. -/
def packIndexEq (a b : List PackIndexEntry) : Bool :=
  (a.zip b).all fun e => e.1.1 == e.2.1

theorem packIndexEq_nil_left (b : List PackIndexEntry) : packIndexEq [] b = true := by
  simp [packIndexEq]

theorem packIndexEq_nil_right (a : List PackIndexEntry) : packIndexEq a [] = true := by
  simp [packIndexEq, List.zip_nil_right]

theorem packIndexEq_cons (x y : PackIndexEntry) (a b : List PackIndexEntry) :
    packIndexEq (x :: a) (y :: b) = (x.1 == y.1 && packIndexEq a b) := by
  simp [packIndexEq, List.zip_cons_cons]

/-- **C10** — PackIndex equality compares only object names pairwise over
the zip of the two entry iterators: when one index's sequence of entry
names is a prefix of the other's, `__eq__` returns `True` in both
directions, regardless of entry counts, offsets or CRC32 values. -/
theorem packIndexEq_of_names_isPre (a b : List PackIndexEntry)
    (h : packIndexEntryNames a <+: packIndexEntryNames b) :
    packIndexEq a b = true ∧ packIndexEq b a = true := by
  induction a generalizing b with
  | nil => exact ⟨packIndexEq_nil_left b, packIndexEq_nil_right b⟩
  | cons x a ih =>
      cases b with
      | nil =>
          rcases h with ⟨t, ht⟩
          simp [packIndexEntryNames] at ht
      | cons y b =>
          have h' : x.1 :: packIndexEntryNames a <+: y.1 :: packIndexEntryNames b := by
            simpa [packIndexEntryNames] using h
          rw [List.cons_prefix_cons] at h'
          obtain ⟨hxy, htail⟩ := h'
          obtain ⟨h1, h2⟩ := ih b htail
          constructor
          · rw [packIndexEq_cons, h1, hxy]
            simp
          · rw [packIndexEq_cons, h2, hxy]
            simp

/-- Witness for C10: a two-entry index and a three-entry index whose
first two names agree but whose offsets, CRC32 values and lengths all
differ still compare equal. -/
theorem packIndexEq_of_names_isPre_witness :
    packIndexEntryNames [([1, 2], 10, 100), ([3, 4], 20, 200)] <+:
      packIndexEntryNames [([1, 2], 11, 101), ([3, 4], 21, 201), ([5, 6], 30, 300)] ∧
    packIndexEq [([1, 2], 10, 100), ([3, 4], 20, 200)]
      [([1, 2], 11, 101), ([3, 4], 21, 201), ([5, 6], 30, 300)] = true ∧
    packIndexEq [([1, 2], 11, 101), ([3, 4], 21, 201), ([5, 6], 30, 300)]
      [([1, 2], 10, 100), ([3, 4], 20, 200)] = true := by
  refine ⟨⟨[([5, 6], 30, 300)].map (·.1), by decide⟩, ?_, ?_⟩
  · exact (packIndexEq_of_names_isPre _ _ ⟨[[5, 6]], by decide⟩).1
  · exact (packIndexEq_of_names_isPre _ _ ⟨[[5, 6]], by decide⟩).2

/- ---------------------------------------------------------------------
   pkt-line framing (dulwich/protocol.py: pkt_line, Protocol.read_pkt_line;
   bodies elided in the source, modelled from the specification §4.M)
   --------------------------------------------------------------------- -/

/-- Lowercase ASCII-hex digit for a value < 16, as produced by Python's
`%04x` formatting. -/
def hexDigitChar (n : Nat) : Nat :=
  if n < 10 then 48 + n else 87 + n

/-- Four lowercase ASCII-hex digits encoding `n` (for `n < 0x10000`),
as produced by Python's `%04x` formatting. -/
def hex4 (n : Nat) : ByteStr :=
  [hexDigitChar (n / 4096 % 16), hexDigitChar (n / 256 % 16),
   hexDigitChar (n / 16 % 16), hexDigitChar (n % 16)]

/-- Value of one ASCII-hex digit character (upper or lower case), as
accepted by Python's `int(_, 16)`. -/
def hexDigitVal (c : Nat) : Option Nat :=
  if 48 ≤ c ∧ c ≤ 57 then some (c - 48)
  else if 97 ≤ c ∧ c ≤ 102 then some (c - 87)
  else if 65 ≤ c ∧ c ≤ 70 then some (c - 55)
  else none

/-- Parse four ASCII-hex digit characters into a number. -/
def parseHex4 (s : ByteStr) : Option Nat :=
  match s with
  | [a, b, c, d] => do
      let va ← hexDigitVal a
      let vb ← hexDigitVal b
      let vc ← hexDigitVal c
      let vd ← hexDigitVal d
      pure (va * 4096 + vb * 256 + vc * 16 + vd)
  | _ => none

/-- Modelled from the spec: the body of `pkt_line` in
`dulwich/protocol.py` is elided in the source.  Per §4.M, a pkt-line is
4 ASCII-hex length bytes plus the payload, the length including the 4
header bytes; `None` maps to the flush-pkt `0000`. -/
def pkt_line : Option ByteStr → ByteStr
  | none => [48, 48, 48, 48]
  | some d => hex4 (d.length + 4) ++ d

/-- Result of reading one pkt-line: the payload (`none` for a flush-pkt
or delim-pkt) and the remaining stream. -/
abbrev PktReadResult := Option ByteStr × ByteStr

/-- Modelled from the spec: the body of `Protocol.read_pkt_line` in
`dulwich/protocol.py` is elided in the source.  Per §4.M and the
method's docstring, it reads 4 ASCII-hex size bytes; size `0`
(flush-pkt) and size `1` (delim-pkt) yield `None`; otherwise it reads
`size - 4` payload bytes. -/
def read_pkt_line (stream : ByteStr) : Option PktReadResult :=
  let sizestr := stream.take 4
  if sizestr.length ≠ 4 then none
  else
    match parseHex4 sizestr with
    | none => none
    | some size =>
        if size = 0 ∨ size = 1 then some (none, stream.drop 4)
        else if size < 4 then none
        else
          let rest := stream.drop 4
          if rest.length < size - 4 then none
          else some (some (rest.take (size - 4)), rest.drop (size - 4))

theorem hexDigitVal_hexDigitChar (n : Nat) (h : n < 16) :
    hexDigitVal (hexDigitChar n) = some n := by
  unfold hexDigitVal hexDigitChar
  interval_cases n <;> simp

theorem parseHex4_hex4 (n : Nat) (h : n < 65536) : parseHex4 (hex4 n) = some n := by
  have h1 : n / 4096 % 16 < 16 := Nat.mod_lt _ (by norm_num)
  have h2 : n / 256 % 16 < 16 := Nat.mod_lt _ (by norm_num)
  have h3 : n / 16 % 16 < 16 := Nat.mod_lt _ (by norm_num)
  have h4 : n % 16 < 16 := Nat.mod_lt _ (by norm_num)
  unfold parseHex4 hex4
  simp only [hexDigitVal_hexDigitChar _ h1, hexDigitVal_hexDigitChar _ h2,
    hexDigitVal_hexDigitChar _ h3, hexDigitVal_hexDigitChar _ h4,
    Option.bind_eq_bind, Option.some_bind, pure]
  simp only [Option.some.injEq]
  have hd : n / 4096 < 16 := by omega
  have e1 : n / 4096 % 16 = n / 4096 := Nat.mod_eq_of_lt hd
  rw [e1]
  omega

theorem hex4_length (n : Nat) : (hex4 n).length = 4 := by
  simp [hex4]

theorem take_four_hex4 (n : Nat) (t : ByteStr) : (hex4 n ++ t).take 4 = hex4 n := by
  rw [List.take_append_of_le_length (by simp [hex4]), List.take_of_length_le (by simp [hex4])]

theorem drop_four_hex4 (n : Nat) (t : ByteStr) : (hex4 n ++ t).drop 4 = t := by
  rw [List.drop_append_of_le_length (by simp [hex4])]
  simp [hex4]

/-- **C5** — For every payload of at most 65516 bytes, `pkt_line(payload)`
is exactly four ASCII-hex digits encoding `len(payload) + 4` followed by
the payload; `pkt_line(None)` is the flush-pkt `b"0000"`; and
`Protocol.read_pkt_line` on a stream beginning with `pkt_line(payload)`
returns exactly that payload (`None` for a flush-pkt), so framing then
reading is the identity on payloads. -/
theorem pkt_line_roundTrip (d rest : ByteStr) (h : d.length ≤ 65516) :
    pkt_line (some d) = hex4 (d.length + 4) ++ d ∧
    parseHex4 ((pkt_line (some d)).take 4) = some (d.length + 4) ∧
    pkt_line none = [48, 48, 48, 48] ∧
    read_pkt_line (pkt_line (some d) ++ rest) = some (some d, rest) ∧
    read_pkt_line (pkt_line none ++ rest) = some (none, rest) := by
  have hlt : d.length + 4 < 65536 := by omega
  refine ⟨rfl, ?_, rfl, ?_, ?_⟩
  · show parseHex4 ((hex4 (d.length + 4) ++ d).take 4) = some (d.length + 4)
    rw [take_four_hex4]
    exact parseHex4_hex4 _ hlt
  · show read_pkt_line ((hex4 (d.length + 4) ++ d) ++ rest) = some (some d, rest)
    rw [List.append_assoc]
    unfold read_pkt_line
    rw [take_four_hex4, drop_four_hex4]
    simp only [hex4_length, if_neg (by omega : ¬ (4 : Nat) ≠ 4), parseHex4_hex4 _ hlt]
    rw [if_neg (by omega), if_neg (by omega)]
    have hsz : d.length + 4 - 4 = d.length := by omega
    rw [hsz, if_neg (by simp)]
    rw [List.take_append_of_le_length le_rfl, List.take_of_length_le le_rfl,
      List.drop_append_of_le_length le_rfl, List.drop_of_length_le le_rfl]
    simp
  · show read_pkt_line ([48, 48, 48, 48] ++ rest) = some (none, rest)
    have h0 : ([48, 48, 48, 48] ++ rest).take 4 = ([48, 48, 48, 48] : ByteStr) := by
      rw [List.take_append_of_le_length (by simp), List.take_of_length_le (by simp)]
    have h1 : ([48, 48, 48, 48] ++ rest).drop 4 = rest := by
      rw [List.drop_append_of_le_length (by simp)]
      simp
    simp [read_pkt_line, h0, h1, parseHex4, hexDigitVal]

/-- Witness for C5: the three-byte payload `b"abc"` frames to
`b"0007abc"` and reads back exactly, with trailing stream preserved. -/
theorem pkt_line_roundTrip_witness :
    ([97, 98, 99] : ByteStr).length ≤ 65516 ∧
    read_pkt_line (pkt_line (some [97, 98, 99]) ++ [120]) = some (some [97, 98, 99], [120]) := by
  refine ⟨by decide, (pkt_line_roundTrip [97, 98, 99] [120] (by decide)).2.2.2.1⟩

/- ---------------------------------------------------------------------
   Reference store (dulwich/refs.py: RefsContainer.follow, set_if_equals;
   bodies elided in the source, modelled from the specification §4.J)
   --------------------------------------------------------------------- -/

/-- Contents of a ref: either a direct OID or a symbolic target
(`b"ref: <name>"` on disk). -/
inductive RefContents where
  | direct (oid : ByteStr)
  | symref (target : ByteStr)
  deriving DecidableEq

/-- A refs container, as a finite association of names to contents. -/
abbrev RefMap := List (ByteStr × RefContents)

/-- `read_ref`: return the raw (symbolic or direct) contents of a ref
without following, or `none` if it does not exist. -/
def readRef (m : RefMap) (n : ByteStr) : Option RefContents :=
  (m.find? (fun p => p.1 == n)).map (·.2)

/-- Result of `RefsContainer.follow`: either the chain of refnames read
plus the final contents (`none` when the last ref does not exist), or a
`SymrefLoop` error carrying the offending refname and depth. -/
inductive FollowResult where
  | ok (refnames : List ByteStr) (sha : Option ByteStr)
  | symrefLoop (ref : ByteStr) (depth : Nat)
  deriving DecidableEq

/-- Modelled from the spec: the body of `RefsContainer.follow` in
`dulwich/refs.py` is elided in the source.  Per §4.J, resolution follows
the symbolic chain, succeeding at depth up to 5 and failing with
`SymrefLoop` at depth 6; each iteration appends the refname to the
chain, reads it, increments the depth and raises once the depth
exceeds 5.  The `fuel` argument keeps the recursion structural; the
loop maintains `depth + fuel = 5`, so the fuel-exhausted branch is
never reached (the depth check fires first). -/
def followLoop (m : RefMap) (refname : ByteStr) (fuel depth : Nat)
    (names : List ByteStr) : FollowResult :=
  let names' := names ++ [refname]
  match readRef m refname with
  | none => .ok names' none
  | some contents =>
      if depth + 1 > 5 then .symrefLoop refname (depth + 1)
      else
        match contents with
        | .direct oid => .ok names' (some oid)
        | .symref t =>
            match fuel with
            | 0 => .symrefLoop refname (depth + 1)
            | fuel' + 1 => followLoop m t fuel' (depth + 1) names'

/-- `RefsContainer.follow`, starting from depth 0. -/
def follow (m : RefMap) (name : ByteStr) : FollowResult :=
  followLoop m name 5 0 []

/-- `name` reaches a direct OID after reading exactly `k` refs: the
first `k - 1` hold symrefs and the `k`-th holds `oid` directly. -/
def chainToB (m : RefMap) (name : ByteStr) (k : Nat) (oid : ByteStr) : Bool :=
  match k with
  | 0 => false
  | 1 => decide (readRef m name = some (.direct oid))
  | k + 2 =>
      match readRef m name with
      | some (.symref t) => chainToB m t (k + 1) oid
      | _ => false

/-- `name` reaches `t` after exactly `k` symref reads (each of the `k`
refs read holds a symref). -/
def symHopsB (m : RefMap) (name : ByteStr) (k : Nat) (t : ByteStr) : Bool :=
  match k with
  | 0 => name == t
  | k + 1 =>
      match readRef m name with
      | some (.symref u) => symHopsB m u k t
      | _ => false

theorem followLoop_chain (k : Nat) (m : RefMap) (name oid : ByteStr)
    (depth : Nat) (names : List ByteStr)
    (hc : chainToB m name k oid = true) (hk1 : 1 ≤ k) (hk5 : depth + k ≤ 5) :
    ∃ ns, followLoop m name (5 - depth) depth names = .ok ns (some oid) := by
  induction k generalizing m name depth names with
  | zero => omega
  | succ k ih =>
      cases k with
      | zero =>
          simp only [chainToB, decide_eq_true_eq] at hc
          refine ⟨names ++ [name], ?_⟩
          unfold followLoop
          rw [hc]
          simp only [if_neg (by omega : ¬ depth + 1 > 5)]
      | succ k =>
          simp only [chainToB] at hc
          rcases hr : readRef m name with _ | c
          · rw [hr] at hc
            simp at hc
          · rcases c with oid' | t
            · rw [hr] at hc
              simp at hc
            · rw [hr] at hc
              have hf : 5 - depth = (5 - (depth + 1)) + 1 := by omega
              obtain ⟨ns, hns⟩ := ih m t (depth + 1) (names ++ [name]) hc
                (by omega) (by omega)
              refine ⟨ns, ?_⟩
              unfold followLoop
              rw [hr]
              simp only [if_neg (by omega : ¬ depth + 1 > 5), hf]
              exact hns

theorem followLoop_deep (j : Nat) (m : RefMap) (name t : ByteStr)
    (c : RefContents) (depth : Nat) (names : List ByteStr)
    (hs : symHopsB m name j t = true) (hd : depth + j = 5)
    (hr : readRef m t = some c) :
    ∃ r d, followLoop m name (5 - depth) depth names = .symrefLoop r d := by
  induction j generalizing m name depth names with
  | zero =>
      simp only [symHopsB, beq_iff_eq] at hs
      subst hs
      refine ⟨name, depth + 1, ?_⟩
      unfold followLoop
      rw [hr]
      simp only [if_pos (by omega : depth + 1 > 5)]
  | succ j ih =>
      simp only [symHopsB] at hs
      rcases hr' : readRef m name with _ | c'
      · rw [hr'] at hs
        simp at hs
      · rcases c' with oid' | u
        · rw [hr'] at hs
          simp at hs
        · rw [hr'] at hs
          have hf : 5 - depth = (5 - (depth + 1)) + 1 := by omega
          obtain ⟨r, d, hrd⟩ := ih m u (depth + 1) (names ++ [name]) hs (by omega) hr
          refine ⟨r, d, ?_⟩
          unfold followLoop
          rw [hr']
          simp only [if_neg (by omega : ¬ depth + 1 > 5), hf]
          exact hrd

/-- **C4** — Resolving a reference follows a chain of symbolic refs of
depth at most 5: for every ref whose symref chain reaches a direct OID
within 5 reads, `follow` returns that OID; for every chain of depth 6
or more (including cycles), it fails with `SymrefLoop`. -/
theorem follow_depth_bound (m : RefMap) (name : ByteStr) :
    (∀ k oid, 1 ≤ k → k ≤ 5 → chainToB m name k oid = true →
        ∃ ns, follow m name = .ok ns (some oid)) ∧
    (∀ t c, symHopsB m name 5 t = true → readRef m t = some c →
        ∃ r d, follow m name = .symrefLoop r d) := by
  constructor
  · intro k oid hk1 hk5 hc
    have := followLoop_chain k m name oid 0 [] hc hk1 (by omega)
    simpa [follow] using this
  · intro t c hs hr
    have := followLoop_deep 5 m name t c 0 [] hs (by omega) hr
    simpa [follow] using this

/-- Witness for C4: the map `a → b → c → d → e → OID` is a depth-5 chain
and resolves to the OID; the self-loop `x → x` is a cycle and fails with
`SymrefLoop`. -/
theorem follow_depth_bound_witness :
    (∃ ns, follow [([97], .symref [98]), ([98], .symref [99]), ([99], .symref [100]),
        ([100], .symref [101]), ([101], .direct [255]), ([120], .symref [120])] [97]
        = .ok ns (some [255])) ∧
    (∃ r d, follow [([97], .symref [98]), ([98], .symref [99]), ([99], .symref [100]),
        ([100], .symref [101]), ([101], .direct [255]), ([120], .symref [120])] [120]
        = .symrefLoop r d) := by
  constructor
  · exact (follow_depth_bound _ [97]).1 5 [255] (by decide) (by decide) (by decide)
  · exact (follow_depth_bound _ [120]).2 [120] (.symref [120]) (by decide) (by decide)

/-- The real name a CAS operates on: the last refname in the symbolic
chain of `name` (falling back to `name` itself when following fails). -/
def realnameOf (m : RefMap) (name : ByteStr) : ByteStr :=
  match follow m name with
  | .ok ns _ => ns.getLast?.getD name
  | .symrefLoop _ _ => name

/-- The stored direct value of a ref, or `none` when the ref is absent
or symbolic. -/
def directValue (m : RefMap) (name : ByteStr) : Option ByteStr :=
  match readRef m name with
  | some (.direct oid) => some oid
  | _ => none

/-- Store `v` under `n`, replacing any previous binding. -/
def setRef (m : RefMap) (n : ByteStr) (v : RefContents) : RefMap :=
  (n, v) :: m.filter (fun p => ¬ p.1 == n)

/-- A reflog entry as recorded by a ref update: the ref updated, its
previous direct value, the new value and the message. -/
abbrev ReflogEntry := ByteStr × Option ByteStr × ByteStr × ByteStr

/-- State of a refs container together with its reflog journal. -/
structure RefsState where
  refs : RefMap
  reflog : List ReflogEntry
  deriving DecidableEq

/-- Modelled from the spec: the bodies of `RefsContainer.set_if_equals`
and `DiskRefsContainer.set_if_equals` in `dulwich/refs.py` are elided in
the source.  Per §4.J and the methods' docstrings: follow all symbolic
references to the real ref, compare its current value against
`old_ref` (`None` meaning an unconditional write), and only on success
write `new_ref` and append a reflog entry, returning `True`; on a
failed comparison return `False` leaving refs and reflog unchanged. -/
def set_if_equals (st : RefsState) (name : ByteStr) (old_ref : Option ByteStr)
    (new_ref msg : ByteStr) : Bool × RefsState :=
  let realname := realnameOf st.refs name
  let current := directValue st.refs realname
  if old_ref = none ∨ current = old_ref then
    (true, ⟨setRef st.refs realname (.direct new_ref),
            st.reflog ++ [(realname, current, new_ref, msg)]⟩)
  else (false, st)

theorem readRef_setRef (m : RefMap) (n : ByteStr) (v : RefContents) :
    readRef (setRef m n v) n = some v := by
  simp [readRef, setRef, List.find?_cons]

/-- **C3** — `set_if_equals(name, old_ref, new_ref, message)` updates the
ref to `new_ref` and appends a reflog entry if and only if the ref's
current value equals `old_ref` (or `old_ref` is `None`, meaning
unconditional write); when the comparison fails it returns `False`, the
stored value is unchanged, and no reflog line is written. -/
theorem set_if_equals_cas (st : RefsState) (name : ByteStr)
    (old_ref : Option ByteStr) (new_ref msg : ByteStr) :
    ((set_if_equals st name old_ref new_ref msg).1 = true ↔
      (old_ref = none ∨ directValue st.refs (realnameOf st.refs name) = old_ref)) ∧
    ((set_if_equals st name old_ref new_ref msg).1 = true →
      readRef (set_if_equals st name old_ref new_ref msg).2.refs
          (realnameOf st.refs name) = some (.direct new_ref) ∧
      (set_if_equals st name old_ref new_ref msg).2.reflog =
        st.reflog ++ [(realnameOf st.refs name,
          directValue st.refs (realnameOf st.refs name), new_ref, msg)]) ∧
    ((set_if_equals st name old_ref new_ref msg).1 = false →
      (set_if_equals st name old_ref new_ref msg).2 = st) := by
  by_cases h : old_ref = none ∨ directValue st.refs (realnameOf st.refs name) = old_ref
  · refine ⟨by simp [set_if_equals, h], ?_, ?_⟩
    · intro _
      constructor
      · simp only [set_if_equals, if_pos h]
        exact readRef_setRef _ _ _
      · simp [set_if_equals, h]
    · intro hf
      simp [set_if_equals, h] at hf
  · refine ⟨by simp [set_if_equals, h], ?_, ?_⟩
    · intro ht
      simp [set_if_equals, h] at ht
    · intro _
      simp [set_if_equals, h]

/-- Witness for C3: a successful CAS on a one-ref store updates the ref
and journals exactly one reflog line; the failing-comparison branch on
the same store returns `False` and leaves the state untouched. -/
theorem set_if_equals_cas_witness :
    (set_if_equals ⟨[([114], .direct [1])], []⟩ [114] (some [1]) [2] [109]).1 = true ∧
    readRef (set_if_equals ⟨[([114], .direct [1])], []⟩ [114]
        (some [1]) [2] [109]).2.refs (realnameOf [([114], .direct [1])] [114]) =
      some (.direct [2]) ∧
    (set_if_equals ⟨[([114], .direct [1])], []⟩ [114] (some [9]) [2] [109]).1 = false ∧
    (set_if_equals ⟨[([114], .direct [1])], []⟩ [114] (some [9]) [2] [109]).2 =
      (⟨[([114], .direct [1])], []⟩ : RefsState) := by
  refine ⟨by decide, ?_, by decide, ?_⟩
  · exact ((set_if_equals_cas ⟨[([114], .direct [1])], []⟩ [114]
      (some [1]) [2] [109]).2.1 (by decide)).1
  · exact (set_if_equals_cas ⟨[([114], .direct [1])], []⟩ [114]
      (some [9]) [2] [109]).2.2 (by decide)

/- ---------------------------------------------------------------------
   Delta codec (dulwich/pack.py: create_delta, apply_delta; bodies
   elided in the source, modelled from the specification §4.F.  The
   source does retain the constant _MAX_COPY_LEN = 65535.)
   --------------------------------------------------------------------- -/

/-- Maximum copy length emitted by the encoder: `_MAX_COPY_LEN = 65535`
from `dulwich/pack.py` (real constant in the source). -/
def MAX_COPY_LEN : Nat := 65535

/-- One step of the ULEB128 encoder; the fuel argument keeps the
recursion structural and is always sufficient (`fuel = n`). -/
def varintEncF : Nat → Nat → ByteStr
  | 0, n => [n % 128]
  | f + 1, n => if n < 128 then [n] else (n % 128 + 128) :: varintEncF f (n / 128)

/-- ULEB128 encoding of `n`: 7 value bits per byte, least significant
first, MSB set on all but the final byte. -/
def varintEnc (n : Nat) : ByteStr := varintEncF n n

/-- ULEB128 decoder loop, accumulating value bits at `shift`. -/
def varintDecF : ByteStr → Nat → Nat → Option (Nat × ByteStr)
  | [], _, _ => none
  | c :: rest, shift, acc =>
      if c < 128 then some (acc + c * 2 ^ shift, rest)
      else varintDecF rest (shift + 7) (acc + (c - 128) * 2 ^ shift)

/-- Decode a ULEB128 integer from the head of a byte string, returning
the value and the remaining bytes. -/
def varintDec (s : ByteStr) : Option (Nat × ByteStr) := varintDec_from s
where varintDec_from (s : ByteStr) : Option (Nat × ByteStr) := varintDecF s 0 0

/-- Bit `i` of `cmd`. -/
def testBit (cmd i : Nat) : Bool := cmd / 2 ^ i % 2 = 1

/-- Read one argument byte of a copy instruction when the corresponding
opcode bit is set, else produce 0 without consuming input. -/
def readByteIf (b : Bool) (s : ByteStr) : Option (Nat × ByteStr) :=
  if b then
    match s with
    | [] => none
    | c :: r => some (c, r)
  else some (0, s)

/-- Decode the arguments of a copy instruction with opcode `cmd`: the
lower 7 opcode bits select which of the following bytes carry the
4-byte little-endian offset (bits 0-3) and 3-byte length (bits 4-6);
a decoded length field of 0 denotes 0x10000.  Mirrors the copy branch
of `apply_delta` as described in §4.F. -/
def readCopy (cmd : Nat) (s : ByteStr) : Option (Nat × Nat × ByteStr) := do
  let (o0, s) ← readByteIf (testBit cmd 0) s
  let (o1, s) ← readByteIf (testBit cmd 1) s
  let (o2, s) ← readByteIf (testBit cmd 2) s
  let (o3, s) ← readByteIf (testBit cmd 3) s
  let (z0, s) ← readByteIf (testBit cmd 4) s
  let (z1, s) ← readByteIf (testBit cmd 5) s
  let (z2, s) ← readByteIf (testBit cmd 6) s
  let off := o0 + o1 * 256 + o2 * 65536 + o3 * 16777216
  let size := z0 + z1 * 256 + z2 * 65536
  let size := if size = 0 then 65536 else size
  some (off, size, s)

theorem readByteIf_length (b : Bool) (s : ByteStr) (v : Nat) (r : ByteStr)
    (h : readByteIf b s = some (v, r)) : r.length ≤ s.length := by
  cases b with
  | false =>
      simp only [readByteIf, Bool.false_eq_true, if_false, Option.some.injEq,
        Prod.mk.injEq] at h
      obtain ⟨-, h2⟩ := h
      subst h2
      exact le_rfl
  | true =>
      simp only [readByteIf, if_true] at h
      cases s with
      | nil => simp at h
      | cons c cs =>
          simp only [Option.some.injEq, Prod.mk.injEq] at h
          obtain ⟨-, h2⟩ := h
          subst h2
          simp

theorem readCopy_length (cmd : Nat) (s : ByteStr) (off size : Nat) (r : ByteStr)
    (h : readCopy cmd s = some (off, size, r)) : r.length ≤ s.length := by
  simp only [readCopy, bind, Option.bind_eq_some] at h
  obtain ⟨⟨o0, s0⟩, h0, h⟩ := h
  obtain ⟨⟨o1, s1⟩, h1, h⟩ := h
  obtain ⟨⟨o2, s2⟩, h2, h⟩ := h
  obtain ⟨⟨o3, s3⟩, h3, h⟩ := h
  obtain ⟨⟨z0, s4⟩, h4, h⟩ := h
  obtain ⟨⟨z1, s5⟩, h5, h⟩ := h
  obtain ⟨⟨z2, s6⟩, h6, h⟩ := h
  simp only [Option.some.injEq, Prod.mk.injEq] at h
  obtain ⟨-, -, h7⟩ := h
  rw [← h7]
  have l6 := readByteIf_length _ _ _ _ h6
  have l5 := readByteIf_length _ _ _ _ h5
  have l4 := readByteIf_length _ _ _ _ h4
  have l3 := readByteIf_length _ _ _ _ h3
  have l2 := readByteIf_length _ _ _ _ h2
  have l1 := readByteIf_length _ _ _ _ h1
  have l0 := readByteIf_length _ _ _ _ h0
  simp only at l0 l1 l2 l3 l4 l5 l6
  omega

/-- Modelled from the spec: the instruction-processing loop of
`apply_delta` in `dulwich/pack.py` (body elided).  Per §4.F: an opcode
byte with its top bit set is a copy (arguments decoded by `readCopy`,
rejected when the copied range exceeds the source); a non-zero opcode
byte below 0x80 is an insert of that many following literal bytes; a
zero opcode byte is rejected. -/
def applyOps (src : ByteStr) (delta : ByteStr) (acc : ByteStr) : Option ByteStr :=
  match delta with
  | [] => some acc
  | cmd :: rest =>
      if 128 ≤ cmd then
        match h : readCopy cmd rest with
        | none => none
        | some (off, size, r) =>
            if off + size ≤ src.length then
              applyOps src r (acc ++ (src.drop off).take size)
            else none
      else if cmd = 0 then none
      else if rest.length < cmd then none
      else applyOps src (rest.drop cmd) (acc ++ rest.take cmd)
  termination_by delta.length
  decreasing_by
  · rename_i rest h1 h2
    have := readCopy_length c rest off size r h
    simp only [List.length_cons]
    omega
  · simp only [List.length_drop, List.length_cons]
    omega

/-- Modelled from the spec: `apply_delta` in `dulwich/pack.py` (body
elided).  Per §4.F: decode the two ULEB128 headers (source and target
sizes), reject when the source size disagrees with the base, process
the instruction stream, and reject when the output length differs from
the target size. -/
def apply_delta (src delta : ByteStr) : Option ByteStr :=
  match varintDec delta with
  | none => none
  | some (srcLen, d1) =>
      if srcLen ≠ src.length then none
      else
        match varintDec d1 with
        | none => none
        | some (destLen, ops) =>
            match applyOps src ops [] with
            | none => none
            | some out => if out.length ≠ destLen then none else some out

/-- The sequence of decoded copy lengths of a delta instruction
stream (stopping at a malformed instruction). -/
def copyLengths (delta : ByteStr) : List Nat :=
  match delta with
  | [] => []
  | cmd :: rest =>
      if 128 ≤ cmd then
        match h : readCopy cmd rest with
        | none => []
        | some (off, size, r) => size :: copyLengths r
      else if cmd = 0 then []
      else copyLengths (rest.drop cmd)
  termination_by delta.length
  decreasing_by
  · rename_i rest h1
    have := readCopy_length c rest off size r h
    simp only [List.length_cons]
    omega
  · simp only [List.length_drop, List.length_cons]
    omega

/-- Length of the longest common initial run of two byte strings. -/
def commonPfxLen : ByteStr → ByteStr → Nat
  | a :: as, b :: bs => if a = b then commonPfxLen as bs + 1 else 0
  | _, _ => 0

/-- Length of the longest common final run of two byte strings. -/
def commonSfxLen (a b : ByteStr) : Nat := commonPfxLen a.reverse b.reverse

/-- A single copy instruction for offset `off` and length `len`: the
opcode byte 0xFF selects all four little-endian offset bytes and all
three little-endian length bytes. -/
def encodeCopy (off len : Nat) : ByteStr :=
  [255, off % 256, off / 256 % 256, off / 65536 % 256, off / 16777216 % 256,
   len % 256, len / 256 % 256, len / 65536 % 256]

/-- Copy instructions covering `len` bytes of the base starting at
`off`, each chunk at most `MAX_COPY_LEN` (65535) bytes. -/
def encodeCopyOps (off len : Nat) : ByteStr :=
  if len = 0 then []
  else if len ≤ MAX_COPY_LEN then encodeCopy off len
  else encodeCopy off MAX_COPY_LEN ++ encodeCopyOps (off + MAX_COPY_LEN) (len - MAX_COPY_LEN)
  termination_by len
  decreasing_by
  · simp only [MAX_COPY_LEN] at *
    omega

/-- Insert instructions for the literal bytes `s`, each chunk at most
127 bytes (the opcode byte is the non-zero chunk length). -/
def encodeInsertOps (s : ByteStr) : ByteStr :=
  if s.length = 0 then []
  else if s.length ≤ 127 then s.length :: s
  else 127 :: (s.take 127 ++ encodeInsertOps (s.drop 127))
  termination_by s.length
  decreasing_by
  · simp only [List.length_drop]
    omega

/-- Modelled from the spec: `create_delta` in `dulwich/pack.py` (body
elided).  Per §4.F the encoder emits the two ULEB128 size headers and a
stream of copy and insert instructions reproducing the target from the
base; this model matches the longest common prefix and suffix of the
two buffers and inserts the differing middle, capping each copy at the
source's `_MAX_COPY_LEN` (65535) and each insert at 127 bytes. -/
def create_delta (base target : ByteStr) : ByteStr :=
  let p := commonPfxLen base target
  let s := commonSfxLen (base.drop p) (target.drop p)
  let mid := (target.drop p).take (target.length - p - s)
  varintEnc base.length ++ varintEnc target.length ++
    encodeCopyOps 0 p ++ encodeInsertOps mid ++ encodeCopyOps (base.length - s) s

theorem varintDecF_encF (f : Nat) : ∀ n (rest : ByteStr) (shift acc : Nat),
    n < 128 ^ (f + 1) →
    varintDecF (varintEncF f n ++ rest) shift acc = some (acc + n * 2 ^ shift, rest) := by
  induction f with
  | zero =>
      intro n rest shift acc hn
      have hn' : n < 128 := by simpa using hn
      simp only [varintEncF, varintDecF, List.cons_append, List.nil_append]
      rw [Nat.mod_eq_of_lt hn']
      rw [if_pos hn']
      simp
  | succ f ih =>
      intro n rest shift acc hn
      by_cases h : n < 128
      · simp only [varintEncF, if_pos h, varintDecF, List.cons_append, List.nil_append]
      · simp only [varintEncF, if_neg h, varintDecF, List.cons_append]
        rw [if_neg (by omega)]
        have hrec : n / 128 < 128 ^ (f + 1) := by
          have : 128 ^ (f + 1 + 1) = 128 ^ (f + 1) * 128 := by ring
          rw [this] at hn
          omega
        rw [ih (n / 128) rest (shift + 7) (acc + (n % 128 + 128 - 128) * 2 ^ shift) hrec]
        have hm : n % 128 + 128 - 128 = n % 128 := by omega
        have hsplit : n % 128 + 128 * (n / 128) = n := Nat.mod_add_div n 128
        have hpow : (2 : Nat) ^ (shift + 7) = 2 ^ shift * 128 := by
          rw [pow_add]
          norm_num
        have hval : acc + (n % 128 + 128 - 128) * 2 ^ shift + n / 128 * 2 ^ (shift + 7)
            = acc + n * 2 ^ shift := by
          rw [hm, hpow]
          calc acc + n % 128 * 2 ^ shift + n / 128 * (2 ^ shift * 128)
              = acc + (n % 128 + 128 * (n / 128)) * 2 ^ shift := by ring
            _ = acc + n * 2 ^ shift := by rw [hsplit]
        rw [hval]

theorem varintDec_enc (n : Nat) (rest : ByteStr) :
    varintDec (varintEnc n ++ rest) = some (n, rest) := by
  have h1 : n < 2 ^ n := Nat.lt_two_pow n
  have h2 : (2 : Nat) ^ n ≤ 128 ^ n := Nat.pow_le_pow_left (by norm_num) n
  have h3 : (128 : Nat) ^ n ≤ 128 ^ (n + 1) := Nat.pow_le_pow_right (by norm_num) (Nat.le_succ n)
  have := varintDecF_encF n n rest 0 0 (by omega)
  simpa [varintDec, varintDec.varintDec_from, varintEnc] using this

theorem applyOps_nil (src acc : ByteStr) : applyOps src [] acc = some acc := by
  unfold applyOps
  rfl

theorem applyOps_copy (src rest acc : ByteStr) (cmd off size : Nat) (r : ByteStr)
    (hcmd : 128 ≤ cmd) (hrc : readCopy cmd rest = some (off, size, r))
    (hb : off + size ≤ src.length) :
    applyOps src (cmd :: rest) acc = applyOps src r (acc ++ (src.drop off).take size) := by
  conv_lhs => unfold applyOps
  rw [if_pos hcmd]
  split
  · next heq =>
      rw [hrc] at heq
      cases heq
  · next o z q heq =>
      rw [hrc] at heq
      obtain ⟨rfl, rfl, rfl⟩ : o = off ∧ z = size ∧ q = r := by
        simpa using heq.symm
      rw [if_pos hb]

theorem applyOps_insert (src rest acc : ByteStr) (cmd : Nat)
    (h1 : 1 ≤ cmd) (h2 : cmd ≤ 127) (h3 : cmd ≤ rest.length) :
    applyOps src (cmd :: rest) acc = applyOps src (rest.drop cmd) (acc ++ rest.take cmd) := by
  conv_lhs => unfold applyOps
  rw [if_neg (by omega : ¬ 128 ≤ cmd), if_neg (by omega : ¬ cmd = 0),
    if_neg (by omega : ¬ rest.length < cmd)]

theorem readCopy_encodeCopy (off len : Nat) (rest : ByteStr)
    (h1 : 1 ≤ len) (h2 : len ≤ 65535) :
    readCopy 255 ([off % 256, off / 256 % 256, off / 65536 % 256, off / 16777216 % 256,
      len % 256, len / 256 % 256, len / 65536 % 256] ++ rest)
      = some (off % 4294967296, len, rest) := by
  have t0 : testBit 255 0 = true := by decide
  have t1 : testBit 255 1 = true := by decide
  have t2 : testBit 255 2 = true := by decide
  have t3 : testBit 255 3 = true := by decide
  have t4 : testBit 255 4 = true := by decide
  have t5 : testBit 255 5 = true := by decide
  have t6 : testBit 255 6 = true := by decide
  simp only [readCopy, t0, t1, t2, t3, t4, t5, t6, readByteIf, if_true,
    List.cons_append, bind, Option.some_bind]
  simp only [Option.some.injEq, Prod.mk.injEq]
  refine ⟨by omega, ?_, rfl⟩
  have hz : len % 256 + len / 256 % 256 * 256 + len / 65536 % 256 * 65536 = len := by omega
  rw [hz, if_neg (by omega)]

theorem applyOps_encodeCopy (src rest acc : ByteStr) (off len : Nat)
    (hoff : off < 4294967296) (h1 : 1 ≤ len) (h2 : len ≤ 65535)
    (hb : off + len ≤ src.length) :
    applyOps src (encodeCopy off len ++ rest) acc
      = applyOps src rest (acc ++ (src.drop off).take len) := by
  have hrc := readCopy_encodeCopy off len rest h1 h2
  rw [Nat.mod_eq_of_lt hoff] at hrc
  have hshape : encodeCopy off len ++ rest = 255 :: ([off % 256, off / 256 % 256,
      off / 65536 % 256, off / 16777216 % 256, len % 256, len / 256 % 256,
      len / 65536 % 256] ++ rest) := by
    simp [encodeCopy]
  rw [hshape]
  exact applyOps_copy src _ acc 255 off len rest (by omega) hrc hb

theorem applyOps_encodeCopyOps (len : Nat) : ∀ (off : Nat) (rest acc src : ByteStr),
    src.length < 4294967296 → off + len ≤ src.length →
    applyOps src (encodeCopyOps off len ++ rest) acc
      = applyOps src rest (acc ++ (src.drop off).take len) := by
  induction len using Nat.strong_induction_on with
  | _ len ih =>
      intro off rest acc src hsrc hb
      by_cases h0 : len = 0
      · subst h0
        unfold encodeCopyOps
        simp
      · by_cases hle : len ≤ MAX_COPY_LEN
        · unfold encodeCopyOps
          rw [if_neg h0, if_pos hle]
          exact applyOps_encodeCopy src rest acc off len (by omega) (by omega)
            (by simpa [MAX_COPY_LEN] using hle) hb
        · have hM : MAX_COPY_LEN = 65535 := rfl
          unfold encodeCopyOps
          rw [if_neg h0, if_neg hle, List.append_assoc]
          rw [applyOps_encodeCopy src _ acc off MAX_COPY_LEN (by omega)
            (by rw [hM]; omega) (by rw [hM]) (by rw [hM] at hle ⊢; omega)]
          rw [ih (len - MAX_COPY_LEN) (by rw [hM] at hle ⊢; omega) (off + MAX_COPY_LEN)
            rest _ src hsrc (by rw [hM] at hle ⊢; omega)]
          rw [List.append_assoc]
          have hdd : (src.drop off).drop MAX_COPY_LEN = src.drop (off + MAX_COPY_LEN) := by
            rw [List.drop_drop]
            try rw [Nat.add_comm]
            try (congr 1; omega)
          have hlen : len = MAX_COPY_LEN + (len - MAX_COPY_LEN) := by
            rw [hM] at hle ⊢
            omega
          congr 1
          conv_rhs => rw [hlen, List.take_add]
          rw [hdd]

theorem applyOps_encodeInsertOps (n : Nat) : ∀ (s rest acc src : ByteStr), s.length = n →
    applyOps src (encodeInsertOps s ++ rest) acc = applyOps src rest (acc ++ s) := by
  induction n using Nat.strong_induction_on with
  | _ n ih =>
      intro s rest acc src hn
      by_cases h0 : s.length = 0
      · unfold encodeInsertOps
        rw [if_pos h0]
        rw [List.length_eq_zero.mp h0]
        simp
      · by_cases hle : s.length ≤ 127
        · unfold encodeInsertOps
          rw [if_neg h0, if_pos hle, List.cons_append]
          rw [applyOps_insert src (s ++ rest) acc s.length (by omega) hle (by simp)]
          rw [List.take_left, List.drop_left]
        · unfold encodeInsertOps
          rw [if_neg h0, if_neg hle, List.cons_append, List.append_assoc]
          have htl : (s.take 127).length = 127 := by
            simp
            omega
          rw [applyOps_insert src _ acc 127 (by omega) (by omega)
            (by simp; omega)]
          have htk : ((s.take 127 ++ (encodeInsertOps (s.drop 127) ++ rest)).take 127)
              = s.take 127 := by
            rw [List.take_append_of_le_length (by rw [htl]),
              List.take_of_length_le (by rw [htl])]
          have hdr : ((s.take 127 ++ (encodeInsertOps (s.drop 127) ++ rest)).drop 127)
              = encodeInsertOps (s.drop 127) ++ rest := by
            rw [List.drop_append_of_le_length (by rw [htl])]
            rw [List.drop_of_length_le (by rw [htl])]
            simp
          rw [htk, hdr]
          rw [ih (s.drop 127).length (by simp; omega) (s.drop 127) rest _ src rfl]
          rw [List.append_assoc, List.take_append_drop]

theorem commonPfxLen_le_left : ∀ a b : ByteStr, commonPfxLen a b ≤ a.length := by
  intro a
  induction a with
  | nil => intro b; cases b <;> simp [commonPfxLen]
  | cons x xs ih =>
      intro b
      cases b with
      | nil => simp [commonPfxLen]
      | cons y ys =>
          by_cases h : x = y
          · simp only [commonPfxLen, if_pos h, List.length_cons]
            have := ih ys
            omega
          · simp [commonPfxLen, if_neg h]

theorem commonPfxLen_le_right : ∀ a b : ByteStr, commonPfxLen a b ≤ b.length := by
  intro a
  induction a with
  | nil => intro b; cases b <;> simp [commonPfxLen]
  | cons x xs ih =>
      intro b
      cases b with
      | nil => simp [commonPfxLen]
      | cons y ys =>
          by_cases h : x = y
          · simp only [commonPfxLen, if_pos h, List.length_cons]
            have := ih ys
            omega
          · simp [commonPfxLen, if_neg h]

theorem take_commonPfxLen : ∀ a b : ByteStr,
    a.take (commonPfxLen a b) = b.take (commonPfxLen a b) := by
  intro a
  induction a with
  | nil => intro b; cases b <;> simp [commonPfxLen]
  | cons x xs ih =>
      intro b
      cases b with
      | nil => simp [commonPfxLen]
      | cons y ys =>
          by_cases h : x = y
          · subst h
            simp only [commonPfxLen, if_pos rfl, if_true, List.take_succ_cons]
            rw [ih ys]
          · simp [commonPfxLen, if_neg h]

theorem commonSfxLen_le_left (a b : ByteStr) : commonSfxLen a b ≤ a.length := by
  simpa using commonPfxLen_le_left a.reverse b.reverse

theorem commonSfxLen_le_right (a b : ByteStr) : commonSfxLen a b ≤ b.length := by
  simpa using commonPfxLen_le_right a.reverse b.reverse

theorem drop_eq_reverse_take (l : ByteStr) (n : Nat) (h : n ≤ l.length) :
    l.drop (l.length - n) = (l.reverse.take n).reverse := by
  have := List.reverse_take (l := l.reverse) (n := n)
  simpa using this.symm

theorem drop_commonSfxLen (a b : ByteStr) :
    a.drop (a.length - commonSfxLen a b) = b.drop (b.length - commonSfxLen a b) := by
  rw [drop_eq_reverse_take a _ (commonSfxLen_le_left a b),
    drop_eq_reverse_take b _ (commonSfxLen_le_right a b)]
  rw [commonSfxLen]
  rw [take_commonPfxLen a.reverse b.reverse]

/-- **C2** — For every pair of byte strings `(base, target)`, applying
the delta produced by `create_delta(base, target)` to `base` with
`apply_delta` reproduces `target` exactly. -/
theorem apply_delta_create_delta (base target : ByteStr)
    (hb : base.length < 4294967296) :
    apply_delta base (create_delta base target) = some target := by
  have hp_l := commonPfxLen_le_left base target
  have hp_r := commonPfxLen_le_right base target
  simp only [create_delta]
  set p := commonPfxLen base target with hp
  set s := commonSfxLen (base.drop p) (target.drop p) with hs
  set mid := (target.drop p).take (target.length - p - s) with hmid
  have hs_l := commonSfxLen_le_left (base.drop p) (target.drop p)
  have hs_r := commonSfxLen_le_right (base.drop p) (target.drop p)
  rw [List.length_drop] at hs_l
  rw [List.length_drop] at hs_r
  rw [← hs] at hs_l hs_r
  unfold apply_delta
  simp only [List.append_assoc]
  rw [varintDec_enc]
  simp only [ne_eq, eq_self_iff_true, not_true_eq_false, if_false]
  rw [varintDec_enc]
  simp only []
  have hcopy1 : applyOps base (encodeCopyOps 0 p ++ (encodeInsertOps mid ++
      encodeCopyOps (base.length - s) s)) []
      = applyOps base (encodeInsertOps mid ++ encodeCopyOps (base.length - s) s)
          ([] ++ (base.drop 0).take p) :=
    applyOps_encodeCopyOps p 0 _ [] base hb (by omega)
  rw [hcopy1]
  simp only [List.drop_zero, List.nil_append]
  rw [applyOps_encodeInsertOps mid.length mid _ _ base rfl]
  rw [← List.append_nil (encodeCopyOps (base.length - s) s)]
  rw [applyOps_encodeCopyOps s (base.length - s) [] _ base hb (by omega)]
  rw [applyOps_nil]
  have e2 : (base.drop (base.length - s)).take s = base.drop (base.length - s) := by
    apply List.take_of_length_le
    simp
    omega
  have e3 : base.drop (base.length - s) = target.drop (target.length - s) := by
    have h0 := drop_commonSfxLen (base.drop p) (target.drop p)
    rw [← hs, List.length_drop, List.length_drop, List.drop_drop, List.drop_drop] at h0
    have hb1 : p + (base.length - p - s) = base.length - s := by omega
    have ht1 : p + (target.length - p - s) = target.length - s := by omega
    rw [hb1, ht1] at h0
    exact h0
  have e1 : base.take p = target.take p := take_commonPfxLen base target
  have e4 : target.take p ++ mid = target.take (target.length - s) := by
    rw [hmid]
    have hsum : target.length - s = p + (target.length - p - s) := by omega
    rw [hsum, List.take_add]
  have eout : (base.take p ++ mid) ++ (base.drop (base.length - s)).take s = target := by
    rw [e2, e3, e1, e4, List.take_append_drop]
  rw [eout]
  simp

/-- Witness for C2: a concrete base and target round-trip through
`create_delta` and `apply_delta`. -/
theorem apply_delta_create_delta_witness :
    apply_delta [1, 2, 3, 4, 5] (create_delta [1, 2, 3, 4, 5] [1, 2, 9, 9, 4, 5])
      = some [1, 2, 9, 9, 4, 5] := by
  exact apply_delta_create_delta [1, 2, 3, 4, 5] [1, 2, 9, 9, 4, 5] (by decide)

/-- The instruction stream of a delta: the bytes after the two ULEB128
size headers. -/
def deltaOps (delta : ByteStr) : Option ByteStr :=
  match varintDec delta with
  | none => none
  | some (_, d1) =>
      match varintDec d1 with
      | none => none
      | some (_, d2) => some d2

theorem copyLengths_nil : copyLengths [] = [] := by
  unfold copyLengths
  rfl

theorem copyLengths_copy (rest : ByteStr) (cmd off size : Nat) (r : ByteStr)
    (hcmd : 128 ≤ cmd) (hrc : readCopy cmd rest = some (off, size, r)) :
    copyLengths (cmd :: rest) = size :: copyLengths r := by
  conv_lhs => unfold copyLengths
  rw [if_pos hcmd]
  split
  · next heq =>
      rw [hrc] at heq
      cases heq
  · next o z q heq =>
      rw [hrc] at heq
      obtain ⟨rfl, rfl, rfl⟩ : o = off ∧ z = size ∧ q = r := by
        simpa using heq.symm
      rfl

theorem copyLengths_insert (rest : ByteStr) (cmd : Nat)
    (h1 : 1 ≤ cmd) (h2 : cmd ≤ 127) :
    copyLengths (cmd :: rest) = copyLengths (rest.drop cmd) := by
  conv_lhs => unfold copyLengths
  rw [if_neg (by omega : ¬ 128 ≤ cmd), if_neg (by omega : ¬ cmd = 0)]

theorem copyLengths_encodeCopy (off len : Nat) (rest : ByteStr)
    (h1 : 1 ≤ len) (h2 : len ≤ 65535) :
    copyLengths (encodeCopy off len ++ rest) = len :: copyLengths rest := by
  have hrc := readCopy_encodeCopy off len rest h1 h2
  have hshape : encodeCopy off len ++ rest = 255 :: ([off % 256, off / 256 % 256,
      off / 65536 % 256, off / 16777216 % 256, len % 256, len / 256 % 256,
      len / 65536 % 256] ++ rest) := by
    simp [encodeCopy]
  rw [hshape]
  exact copyLengths_copy _ 255 (off % 4294967296) len rest (by omega) hrc

theorem copyLengths_encodeCopyOps (len : Nat) : ∀ (off : Nat) (rest : ByteStr),
    ∀ l ∈ copyLengths (encodeCopyOps off len ++ rest),
      l ∈ copyLengths rest ∨ l ≤ 65535 := by
  induction len using Nat.strong_induction_on with
  | _ len ih =>
      intro off rest l hl
      by_cases h0 : len = 0
      · subst h0
        unfold encodeCopyOps at hl
        simp at hl
        exact Or.inl hl
      · by_cases hle : len ≤ MAX_COPY_LEN
        · unfold encodeCopyOps at hl
          rw [if_neg h0, if_pos hle] at hl
          rw [copyLengths_encodeCopy off len rest (by omega)
            (by simpa [MAX_COPY_LEN] using hle), List.mem_cons] at hl
          rcases hl with hl | hl
          · right
            rw [hl]
            simpa [MAX_COPY_LEN] using hle
          · exact Or.inl hl
        · have hM : MAX_COPY_LEN = 65535 := rfl
          unfold encodeCopyOps at hl
          rw [if_neg h0, if_neg hle, List.append_assoc] at hl
          rw [copyLengths_encodeCopy off MAX_COPY_LEN _ (by rw [hM]; omega) (by rw [hM]),
            List.mem_cons] at hl
          rcases hl with hl | hl
          · right
            rw [hl, hM]
          · exact ih (len - MAX_COPY_LEN) (by rw [hM] at hle ⊢; omega) (off + MAX_COPY_LEN)
              rest l hl

theorem copyLengths_encodeInsertOps (n : Nat) : ∀ (s rest : ByteStr), s.length = n →
    copyLengths (encodeInsertOps s ++ rest) = copyLengths rest := by
  induction n using Nat.strong_induction_on with
  | _ n ih =>
      intro s rest hn
      by_cases h0 : s.length = 0
      · unfold encodeInsertOps
        rw [if_pos h0]
        simp
      · by_cases hle : s.length ≤ 127
        · unfold encodeInsertOps
          rw [if_neg h0, if_pos hle, List.cons_append]
          rw [copyLengths_insert (s ++ rest) s.length (by omega) hle]
          rw [List.drop_left]
        · unfold encodeInsertOps
          rw [if_neg h0, if_neg hle, List.cons_append, List.append_assoc]
          rw [copyLengths_insert _ 127 (by omega) (by omega)]
          have htl : (s.take 127).length = 127 := by
            simp
            omega
          rw [List.drop_append_of_le_length (by rw [htl]),
            List.drop_of_length_le (by rw [htl]), List.nil_append]
          exact ih (s.drop 127).length (by simp; omega) (s.drop 127) rest rfl

/-- **C8** — Every copy instruction in the delta produced by
`create_delta(base, target)` copies at most 0x10000 (65536) bytes of the
base (the source's `_MAX_COPY_LEN` caps each emitted copy at 65535,
which is within the claim's bound), and in the copy encoding a length
field of 0 denotes 0x10000, the maximum representable copy length. -/
theorem create_delta_copy_bound (base target : ByteStr) :
    (∃ ops, deltaOps (create_delta base target) = some ops ∧
      (copyLengths ops).all (fun l => decide (l ≤ 65536)) = true) ∧
    (∀ o0 o1 o2 o3 rest, readCopy 143 (o0 :: o1 :: o2 :: o3 :: rest)
      = some (o0 + o1 * 256 + o2 * 65536 + o3 * 16777216, 65536, rest)) := by
  constructor
  · refine ⟨encodeCopyOps 0 (commonPfxLen base target) ++
      (encodeInsertOps ((target.drop (commonPfxLen base target)).take
        (target.length - commonPfxLen base target -
          commonSfxLen (base.drop (commonPfxLen base target))
            (target.drop (commonPfxLen base target)))) ++
       encodeCopyOps (base.length - commonSfxLen (base.drop (commonPfxLen base target))
            (target.drop (commonPfxLen base target)))
         (commonSfxLen (base.drop (commonPfxLen base target))
            (target.drop (commonPfxLen base target)))), ?_, ?_⟩
    · simp only [create_delta, deltaOps, List.append_assoc]
      rw [varintDec_enc]
      simp only []
      rw [varintDec_enc]
    · rw [List.all_eq_true]
      intro l hl
      simp only [decide_eq_true_eq]
      set p := commonPfxLen base target with hp
      set sfx := commonSfxLen (base.drop p) (target.drop p) with hs
      rcases copyLengths_encodeCopyOps p 0 _ l hl with h | h
      · rw [copyLengths_encodeInsertOps ((target.drop p).take
          (target.length - p - sfx)).length _ _ rfl] at h
        rw [← List.append_nil (encodeCopyOps (base.length - sfx) sfx)] at h
        rcases copyLengths_encodeCopyOps sfx (base.length - sfx) [] l h with h2 | h2
        · rw [copyLengths_nil] at h2
          simp at h2
        · omega
      · omega
  · intro o0 o1 o2 o3 rest
    have t0 : testBit 143 0 = true := by decide
    have t1 : testBit 143 1 = true := by decide
    have t2 : testBit 143 2 = true := by decide
    have t3 : testBit 143 3 = true := by decide
    have t4 : testBit 143 4 = false := by decide
    have t5 : testBit 143 5 = false := by decide
    have t6 : testBit 143 6 = false := by decide
    simp [readCopy, t0, t1, t2, t3, t4, t5, t6, readByteIf]

/- ---------------------------------------------------------------------
   Pack index lookup (dulwich/pack.py: FilePackIndex.object_offset,
   _object_offset, bisect_find_sha; bodies elided in the source,
   modelled from the specification §4.D and the class docstring)
   --------------------------------------------------------------------- -/

/-- Lexicographic (bytewise) strict order on byte strings, as Python
compares `bytes`. -/
def byteLt : ByteStr → ByteStr → Bool
  | [], [] => false
  | [], _ :: _ => true
  | _ :: _, [] => false
  | a :: as, b :: bs => if a < b then true else if b < a then false else byteLt as bs

theorem byteLt_irrefl : ∀ a : ByteStr, byteLt a a = false := by
  intro a
  induction a with
  | nil => rfl
  | cons x xs ih => simp [byteLt, ih]

theorem byteLt_trans : ∀ a b c : ByteStr,
    byteLt a b = true → byteLt b c = true → byteLt a c = true := by
  intro a
  induction a with
  | nil =>
      intro b c hab hbc
      cases b with
      | nil => cases hab
      | cons y ys =>
          cases c with
          | nil => cases hbc
          | cons z zs => rfl
  | cons x xs ih =>
      intro b c hab hbc
      cases b with
      | nil => cases hab
      | cons y ys =>
          cases c with
          | nil => cases hbc
          | cons z zs =>
              simp only [byteLt] at hab hbc ⊢
              by_cases hxy : x < y
              · by_cases hyz : y < z
                · rw [if_pos (by omega)]
                · rw [if_pos hxy] at hab
                  rw [if_neg hyz] at hbc
                  by_cases hzy : z < y
                  · rw [if_pos hzy] at hbc
                    cases hbc
                  · rw [if_neg hzy] at hbc
                    have : y = z := by omega
                    subst this
                    rw [if_pos hxy]
              · rw [if_neg hxy] at hab
                by_cases hyx : y < x
                · rw [if_pos hyx] at hab
                  cases hab
                · rw [if_neg hyx] at hab
                  have hxy' : x = y := by omega
                  subst hxy'
                  by_cases hyz : x < z
                  · rw [if_pos hyz]
                  · rw [if_neg hyz] at hbc ⊢
                    by_cases hzy : z < x
                    · rw [if_pos hzy] at hbc
                      cases hbc
                    · rw [if_neg hzy] at hbc ⊢
                      exact ih ys zs hab hbc

theorem byteLt_total_eq : ∀ a b : ByteStr,
    byteLt a b = false → byteLt b a = false → a = b := by
  intro a
  induction a with
  | nil =>
      intro b hab _
      cases b with
      | nil => rfl
      | cons y ys => cases hab
  | cons x xs ih =>
      intro b hab hba
      cases b with
      | nil => cases hba
      | cons y ys =>
          simp only [byteLt] at hab hba
          by_cases hxy : x < y
          · rw [if_pos hxy] at hab
            cases hab
          · rw [if_neg hxy] at hab
            by_cases hyx : y < x
            · rw [if_pos hyx] at hba
              cases hba
            · rw [if_neg hyx] at hab
              rw [if_neg hyx, if_neg hxy] at hba
              have : x = y := by omega
              subst this
              rw [ih ys hab hba]

theorem byteLt_of_headI_lt : ∀ a b : ByteStr, a.headI < b.headI → byteLt a b = true := by
  intro a b h
  cases b with
  | nil => simp [List.headI] at h
  | cons y ys =>
      cases a with
      | nil => rfl
      | cons x xs =>
          simp only [List.headI] at h
          simp [byteLt, if_pos h]

theorem headI_le_of_byteLt : ∀ a b : ByteStr, byteLt a b = true → a.headI ≤ b.headI := by
  intro a b h
  cases a with
  | nil => simp [List.headI]
  | cons x xs =>
      cases b with
      | nil => cases h
      | cons y ys =>
          simp only [byteLt] at h
          simp only [List.headI]
          by_cases hxy : x < y
          · omega
          · rw [if_neg hxy] at h
            by_cases hyx : y < x
            · rw [if_pos hyx] at h
              cases h
            · omega

/-- An in-memory view of a pack index: the entry list of (OID, pack
offset), in file order. -/
abbrev IdxEntries := List (ByteStr × Nat)

/-- `_unpack_name(i)`: the i-th OID of the index's sorted OID table. -/
def unpackName (entries : IdxEntries) (i : Nat) : ByteStr :=
  (entries.getD i ([], 0)).1

/-- `_unpack_offset(i)`: the i-th pack offset of the index. -/
def unpackOffset (entries : IdxEntries) (i : Nat) : Nat :=
  (entries.getD i ([], 0)).2

/-- The fanout value a well-formed v2 index stores for byte `b`: the
number of OIDs whose first byte is at most `b` (§3, §4.D). -/
def fanout (entries : IdxEntries) (b : Nat) : Nat :=
  entries.countP (fun e => decide (e.1.headI ≤ b))

/-- A well-formed index: the OID table is strictly sorted. -/
def SortedIdx (entries : IdxEntries) : Prop :=
  List.Pairwise (fun e f => byteLt e.1 f.1 = true) entries

/-- Modelled from the spec: the body of `bisect_find_sha` in
`dulwich/pack.py` is elided.  Per §4.D and the docstring, a binary
search over `[start, stop)` of the sorted OID table; the fuel argument
keeps the recursion structural and `stop - start + 1` always
suffices. -/
def bisectFindShaF : Nat → IdxEntries → Nat → Nat → ByteStr → Option Nat
  | 0, _, _, _, _ => none
  | f + 1, entries, start, stop, sha =>
      if start < stop then
        let i := (start + stop) / 2
        let name := unpackName entries i
        if byteLt name sha then bisectFindShaF f entries (i + 1) stop sha
        else if byteLt sha name then bisectFindShaF f entries start i sha
        else some i
      else none

/-- `bisect_find_sha(start, end, sha, unpack_name)`. -/
def bisect_find_sha (entries : IdxEntries) (start stop : Nat) (sha : ByteStr) : Option Nat :=
  bisectFindShaF (stop - start + 1) entries start stop sha

/-- Modelled from the spec: `FilePackIndex.object_offset` /
`_object_offset` (bodies elided).  Per §4.D: the first byte of the
binary SHA selects the fanout window `[fanout[b-1], fanout[b])`, which
bounds a binary search of the OID table; `none` reports absence. -/
def object_offset (entries : IdxEntries) (sha : ByteStr) : Option Nat :=
  let idx0 := sha.headI
  let start := if idx0 = 0 then 0 else fanout entries (idx0 - 1)
  let stop := fanout entries idx0
  match bisect_find_sha entries start stop sha with
  | none => none
  | some i => some (unpackOffset entries i)

/-- The reference lookup: a linear scan of the entry list. -/
def linearScanOffset (entries : IdxEntries) (sha : ByteStr) : Option Nat :=
  (entries.find? (fun e => e.1 == sha)).map (·.2)

theorem sortedIdx_byteLt (entries : IdxEntries) (hs : SortedIdx entries)
    (i j : Nat) (hij : i < j) (hj : j < entries.length) :
    byteLt (unpackName entries i) (unpackName entries j) = true := by
  rw [SortedIdx, List.pairwise_iff_get] at hs
  have hi : i < entries.length := by omega
  have := hs ⟨i, hi⟩ ⟨j, hj⟩ hij
  simpa [unpackName, List.getD, List.getElem?_eq_getElem hi,
    List.getElem?_eq_getElem hj] using this


theorem countP_prefix_char (P : ByteStr × Nat → Bool) :
    ∀ l : IdxEntries,
    (∀ i j, i < j → j < l.length → P (l.getD j ([], 0)) = true →
      P (l.getD i ([], 0)) = true) →
    ∀ i, i < l.length → (P (l.getD i ([], 0)) = true ↔ i < l.countP P) := by
  intro l
  induction l with
  | nil =>
      intro _ i hi
      simp at hi
  | cons x xs ih =>
      intro hmono i hi
      rw [List.countP_cons]
      by_cases hPx : P x = true
      · rw [hPx]
        simp only [if_true]
        cases i with
        | zero =>
            rw [List.getD_cons_zero]
            constructor
            · intro _
              omega
            · intro _
              exact hPx
        | succ k =>
            have hk : k < xs.length := by
              simpa using hi
            have hmono' : ∀ i j, i < j → j < xs.length → P (xs.getD j ([], 0)) = true →
                P (xs.getD i ([], 0)) = true := by
              intro i j hij hj hP
              have h2 := hmono (i + 1) (j + 1) (by omega) (by simpa using hj)
              rw [List.getD_cons_succ, List.getD_cons_succ] at h2
              exact h2 hP
            have h3 := ih hmono' k hk
            rw [List.getD_cons_succ]
            rw [h3]
            omega
      · have hPx' : P x = false := by
          cases hx : P x
          · rfl
          · exact absurd hx hPx
        have hall : ∀ j, j < xs.length → P (xs.getD j ([], 0)) = false := by
          intro j hj
          cases hx : P (xs.getD j ([], 0))
          · rfl
          · have h2 := hmono 0 (j + 1) (by omega) (by simpa using hj)
            rw [List.getD_cons_succ, List.getD_cons_zero] at h2
            exact absurd (h2 hx) hPx
        have hcount : xs.countP P = 0 := by
          rw [List.countP_eq_zero]
          intro a ha
          obtain ⟨k, hk, hak⟩ := List.mem_iff_getElem.mp ha
          have := hall k hk
          rw [List.getD_eq_getElem _ _ hk, hak] at this
          simp [this]
        rw [hPx', if_neg Bool.false_ne_true, Nat.add_zero, hcount]
        constructor
        · intro hP
          cases i with
          | zero =>
              rw [List.getD_cons_zero] at hP
              exact absurd hP hPx
          | succ k =>
              rw [List.getD_cons_succ] at hP
              have hk : k < xs.length := by simpa using hi
              rw [hall k hk] at hP
              cases hP
        · intro h
          omega

theorem fanout_le_length (entries : IdxEntries) (b : Nat) :
    fanout entries b ≤ entries.length :=
  List.countP_le_length _

theorem fanout_char (entries : IdxEntries) (hs : SortedIdx entries) (b i : Nat)
    (hi : i < entries.length) :
    ((unpackName entries i).headI ≤ b ↔ i < fanout entries b) := by
  have hmono : ∀ i j, i < j → j < entries.length →
      (fun e : ByteStr × Nat => decide (e.1.headI ≤ b)) (entries.getD j ([], 0)) = true →
      (fun e : ByteStr × Nat => decide (e.1.headI ≤ b)) (entries.getD i ([], 0)) = true := by
    intro i j hij hj hPj
    simp only [decide_eq_true_eq] at hPj ⊢
    have hlt := sortedIdx_byteLt entries hs i j hij hj
    have hle := headI_le_of_byteLt _ _ hlt
    simp only [unpackName] at hle
    omega
  have h := countP_prefix_char (fun e => decide (e.1.headI ≤ b)) entries hmono i hi
  simpa [unpackName, fanout, decide_eq_true_eq] using h

theorem bisectFindShaF_correct (f : Nat) : ∀ (entries : IdxEntries) (sha : ByteStr)
    (start stop : Nat), SortedIdx entries → stop ≤ entries.length → stop - start < f →
    (∃ i, bisectFindShaF f entries start stop sha = some i ∧ start ≤ i ∧ i < stop ∧
        unpackName entries i = sha) ∨
    (bisectFindShaF f entries start stop sha = none ∧
      ∀ i, start ≤ i → i < stop → unpackName entries i ≠ sha) := by
  induction f with
  | zero =>
      intro _ _ start stop _ _ hf
      omega
  | succ f ih =>
      intro entries sha start stop hs hstop hf
      by_cases hss : start < stop
      · have hi1 : start ≤ (start + stop) / 2 := by omega
        have hi2 : (start + stop) / 2 < stop := by omega
        have hilen : (start + stop) / 2 < entries.length := by omega
        simp only [bisectFindShaF, if_pos hss]
        cases hlt : byteLt (unpackName entries ((start + stop) / 2)) sha with
        | true =>
            simp only [eq_self_iff_true, if_true]
            rcases ih entries sha ((start + stop) / 2 + 1) stop hs hstop (by omega) with
              ⟨j, heq, hj1, hj2, hname⟩ | ⟨heq, hnone⟩
            · exact Or.inl ⟨j, heq, by omega, hj2, hname⟩
            · refine Or.inr ⟨heq, ?_⟩
              intro k hk1 hk2
              by_cases hk : (start + stop) / 2 + 1 ≤ k
              · exact hnone k hk hk2
              · intro hcon
                have hk' : k ≤ (start + stop) / 2 := by omega
                by_cases hke : k = (start + stop) / 2
                · rw [← hke, hcon] at hlt
                  rw [byteLt_irrefl] at hlt
                  cases hlt
                · have hsk := sortedIdx_byteLt entries hs k ((start + stop) / 2)
                    (by omega) hilen
                  have := byteLt_trans _ _ _ hsk hlt
                  rw [hcon, byteLt_irrefl] at this
                  cases this
        | false =>
            simp only [Bool.false_eq_true, if_false]
            cases hgt : byteLt sha (unpackName entries ((start + stop) / 2)) with
            | true =>
                simp only [eq_self_iff_true, if_true]
                rcases ih entries sha start ((start + stop) / 2) hs (by omega) (by omega) with
                  ⟨j, heq, hj1, hj2, hname⟩ | ⟨heq, hnone⟩
                · exact Or.inl ⟨j, heq, hj1, by omega, hname⟩
                · refine Or.inr ⟨heq, ?_⟩
                  intro k hk1 hk2
                  by_cases hk : k < (start + stop) / 2
                  · exact hnone k hk1 hk
                  · intro hcon
                    by_cases hke : k = (start + stop) / 2
                    · rw [← hke, hcon] at hgt
                      rw [byteLt_irrefl] at hgt
                      cases hgt
                    · have hsk := sortedIdx_byteLt entries hs ((start + stop) / 2) k
                        (by omega) (by omega)
                      have := byteLt_trans _ _ _ hgt hsk
                      rw [hcon, byteLt_irrefl] at this
                      cases this
            | false =>
                simp only [Bool.false_eq_true, if_false]
                have heq := byteLt_total_eq _ _ hlt hgt
                refine Or.inl ⟨(start + stop) / 2, ?_, hi1, hi2, heq⟩
                rfl
      · simp only [bisectFindShaF, if_neg hss]
        refine Or.inr ⟨?_, ?_⟩
        · first
          | rfl
          | trivial
        · intro k hk1 hk2
          omega

theorem find_first_unique (p : ByteStr × Nat → Bool) :
    ∀ (l : IdxEntries) (i : Nat), i < l.length → p (l.getD i ([], 0)) = true →
    (∀ j, j < l.length → j ≠ i → p (l.getD j ([], 0)) = false) →
    l.find? p = some (l.getD i ([], 0)) := by
  intro l
  induction l with
  | nil =>
      intro i hi _ _
      simp at hi
  | cons x xs ih =>
      intro i hi hp hothers
      cases i with
      | zero =>
          rw [List.getD_cons_zero] at hp ⊢
          rw [List.find?_cons_of_pos _ hp]
      | succ k =>
          have hx : p x = false := by
            have h0 := hothers 0 (by omega) (by omega)
            rwa [List.getD_cons_zero] at h0
          rw [List.find?_cons_of_neg _ (by simp [hx]), List.getD_cons_succ]
          apply ih k (by simpa using hi) (by rwa [List.getD_cons_succ] at hp)
          intro j hj hji
          have h1 := hothers (j + 1) (by simpa using hj) (by omega)
          rwa [List.getD_cons_succ] at h1

/-- **C6** — For every well-formed v2 pack index (strictly sorted OID
table with its derived fanout) and every OID, the fanout-bounded binary
search performed by `FilePackIndex.object_offset` returns the same
result as a linear scan of the index's entry list: the same offset for
every OID present, and absence for every OID not present. -/
theorem object_offset_eq_linearScan (entries : IdxEntries) (sha : ByteStr)
    (hs : SortedIdx entries) :
    object_offset entries sha = linearScanOffset entries sha := by
  have hstop_le : fanout entries sha.headI ≤ entries.length := fanout_le_length entries _
  have hA : ∀ i, i < entries.length →
      i < (if sha.headI = 0 then 0 else fanout entries (sha.headI - 1)) →
      byteLt (unpackName entries i) sha = true := by
    intro i hi hlt
    by_cases h0 : sha.headI = 0
    · rw [if_pos h0] at hlt
      omega
    · rw [if_neg h0] at hlt
      have hh := (fanout_char entries hs (sha.headI - 1) i hi).mpr hlt
      exact byteLt_of_headI_lt _ _ (by omega)
  have hB : ∀ i, fanout entries sha.headI ≤ i → i < entries.length →
      byteLt sha (unpackName entries i) = true := by
    intro i hge hi
    have hnot : ¬ ((unpackName entries i).headI ≤ sha.headI) := by
      intro hcon
      have := (fanout_char entries hs sha.headI i hi).mp hcon
      omega
    exact byteLt_of_headI_lt _ _ (by omega)
  rcases bisectFindShaF_correct (fanout entries sha.headI -
      (if sha.headI = 0 then 0 else fanout entries (sha.headI - 1)) + 1) entries sha
      (if sha.headI = 0 then 0 else fanout entries (sha.headI - 1))
      (fanout entries sha.headI) hs hstop_le (by omega) with
    hfound | hmissing
  · obtain ⟨i, heq, hi1, hi2, hname⟩ := hfound
    have hil : i < entries.length := by omega
    have hobj : object_offset entries sha = some (unpackOffset entries i) := by
      simp only [object_offset, bisect_find_sha]
      rw [heq]
    have hp : (fun e : ByteStr × Nat => e.1 == sha) (entries.getD i ([], 0)) = true := by
      simp only [beq_iff_eq]
      exact hname
    have hothers : ∀ j, j < entries.length → j ≠ i →
        (fun e : ByteStr × Nat => e.1 == sha) (entries.getD j ([], 0)) = false := by
      intro j hj hji
      simp only [beq_eq_false_iff_ne, ne_eq]
      intro hcon
      have hconb : unpackName entries j = sha := hcon
      by_cases hjs : j < (if sha.headI = 0 then 0 else fanout entries (sha.headI - 1))
      · have hlt := hA j hj hjs
        rw [hconb, byteLt_irrefl] at hlt
        cases hlt
      · by_cases hje : j < fanout entries sha.headI
        · by_cases hji2 : j < i
          · have hlt := sortedIdx_byteLt entries hs j i hji2 hil
            rw [hconb, hname, byteLt_irrefl] at hlt
            cases hlt
          · have hlt := sortedIdx_byteLt entries hs i j (by omega) hj
            rw [hconb, hname, byteLt_irrefl] at hlt
            cases hlt
        · have hlt := hB j (by omega) hj
          rw [hconb, byteLt_irrefl] at hlt
          cases hlt
    have hfind := find_first_unique (fun e => e.1 == sha) entries i hil hp hothers
    rw [hobj, linearScanOffset, hfind]
    rfl
  · obtain ⟨heq, hnone⟩ := hmissing
    have hobj : object_offset entries sha = none := by
      simp only [object_offset, bisect_find_sha]
      rw [heq]
    have hallne : ∀ j, j < entries.length → unpackName entries j ≠ sha := by
      intro j hj
      by_cases h1 : j < (if sha.headI = 0 then 0 else fanout entries (sha.headI - 1))
      · intro hcon
        have hlt := hA j hj h1
        rw [hcon, byteLt_irrefl] at hlt
        cases hlt
      · by_cases h2 : j < fanout entries sha.headI
        · exact hnone j (by omega) h2
        · intro hcon
          have hlt := hB j (by omega) hj
          rw [hcon, byteLt_irrefl] at hlt
          cases hlt
    have hfind : entries.find? (fun e => e.1 == sha) = none := by
      rw [List.find?_eq_none]
      intro a ha
      obtain ⟨k, hk, hak⟩ := List.mem_iff_getElem.mp ha
      simp only [beq_iff_eq]
      have hne := hallne k hk
      rw [unpackName, List.getD_eq_getElem _ _ hk, hak] at hne
      exact hne
    rw [hobj, linearScanOffset, hfind]
    rfl

/-- Witness for C6: on a concrete sorted two-entry index, the
fanout-bounded binary search and the linear scan agree both for a
present OID and for an absent one. -/
theorem object_offset_eq_linearScan_witness :
    object_offset [([1, 1], 5), ([2, 0], 9)] [2, 0]
      = linearScanOffset [([1, 1], 5), ([2, 0], 9)] [2, 0] ∧
    object_offset [([1, 1], 5), ([2, 0], 9)] [3, 3]
      = linearScanOffset [([1, 1], 5), ([2, 0], 9)] [3, 3] := by
  constructor
  · exact object_offset_eq_linearScan [([1, 1], 5), ([2, 0], 9)] [2, 0]
      (by unfold SortedIdx; decide)
  · exact object_offset_eq_linearScan [([1, 1], 5), ([2, 0], 9)] [3, 3]
      (by unfold SortedIdx; decide)

/- ---------------------------------------------------------------------
   Missing-objects finder (dulwich/object_store.py).
   MissingObjectFinder.__init__ and __next__ carry real code in the
   source; the helpers _split_commits_and_tags, _collect_ancestors,
   _collect_filetree_revs and add_todo are elided and modelled from the
   specification §4.I and their docstrings.
   --------------------------------------------------------------------- -/

/-- A git object: commit, tree, blob or tag, as in `dulwich/objects.py`
(type numbers: commit 1, tree 2, blob 3, tag 4). -/
inductive GObj where
  | commit (tree : ByteStr) (parents : List ByteStr)
  | tree (entries : List (ByteStr × Nat × ByteStr))
  | blob (data : ByteStr)
  | tag (objTypeNum : Nat) (objSha : ByteStr)
  deriving DecidableEq

/-- An object store: a finite association of OIDs to objects. -/
abbrev GStore := List (ByteStr × GObj)

/-- Object lookup (`obj_store[sha]`), `none` when absent. -/
def storeGet (s : GStore) (k : ByteStr) : Option GObj :=
  (s.find? (fun p => p.1 == k)).map (·.2)

/-- `stat.S_IFMT`: the file-type bits of a mode. -/
def S_IFMT (m : Nat) : Nat := m / 4096 % 16 * 4096

/-- `S_ISGITLINK` from `dulwich/objects.py`: mode 0o160000 marks a
submodule entry. -/
def S_ISGITLINK (m : Nat) : Bool := S_IFMT m = 57344

/-- `stat.S_ISDIR`: mode 0o040000. -/
def S_ISDIR (m : Nat) : Bool := S_IFMT m = 16384

/-- `stat.S_ISREG`: mode 0o100000. -/
def S_ISREG (m : Nat) : Bool := S_IFMT m = 32768

/-- Add an OID to a set-as-list. -/
def insertSha (e : ByteStr) (l : List ByteStr) : List ByteStr :=
  if e ∈ l then l else e :: l

theorem mem_insertSha (x e : ByteStr) (l : List ByteStr) :
    x ∈ insertSha e l ↔ x = e ∨ x ∈ l := by
  unfold insertSha
  by_cases h : e ∈ l
  · rw [if_pos h]
    constructor
    · exact Or.inr
    · rintro (rfl | hx)
      · exact h
      · exact hx
  · rw [if_neg h]
    simp

/-- The OID holds a commit in the store. -/
def isCommitB (s : GStore) (k : ByteStr) : Bool :=
  match storeGet s k with
  | some (.commit _ _) => true
  | _ => false

/-- The OID holds a tag in the store. -/
def isTagB (s : GStore) (k : ByteStr) : Bool :=
  match storeGet s k with
  | some (.tag _ _) => true
  | _ => false

/-- The OID holds neither a commit nor a tag (tree, blob or absent). -/
def notCTB (s : GStore) (k : ByteStr) : Bool :=
  match storeGet s k with
  | some (.commit _ _) => false
  | some (.tag _ _) => false
  | _ => true

/-- `get_parents` composed with lookup: the parent list of a commit,
`[]` for any other or absent object. -/
def parentsOfObj : GObj → List ByteStr
  | .commit _ ps => ps
  | _ => []

/-- Parents of the object stored at `e`. -/
def parentsOf (store : GStore) (e : ByteStr) : List ByteStr :=
  match storeGet store e with
  | some o => parentsOfObj o
  | none => []

/-- Modelled from the spec: `_split_commits_and_tags` in
`dulwich/object_store.py` (body elided).  Per its docstring: split an
OID list into commit, tag and other OIDs; commits referenced by tags
are included in the commits; unknown OIDs are skipped when
`ignore_unknown`, otherwise the call fails (KeyError). -/
def splitCT (store : GStore) (ignoreUnknown : Bool) :
    List ByteStr → Option (List ByteStr × List ByteStr × List ByteStr)
  | [] => some ([], [], [])
  | e :: rest => do
      let (cs, ts, os) ← splitCT store ignoreUnknown rest
      match storeGet store e with
      | none => if ignoreUnknown then some (cs, ts, os) else none
      | some (.commit _ _) => some (insertSha e cs, ts, os)
      | some (.tag _ target) =>
          let cs2 := match storeGet store target with
            | some (.commit _ _) => insertSha target cs
            | _ => cs
          some (cs2, insertSha e ts, os)
      | some _ => some (cs, ts, insertSha e os)

/-- Work-bound potential for the ancestor walk: one unit per unvisited
store entry plus one per parent edge. -/
def phiS (store : GStore) (visited : List ByteStr) : Nat :=
  ((store.filter (fun kv => decide (kv.1 ∉ visited))).map
    (fun kv => 1 + (parentsOfObj kv.2).length)).sum

/-- Modelled from the spec: the BFS loop of `_collect_ancestors` in
`dulwich/object_store.py` (body elided).  Per its docstring: walk from
the queued heads; a head in `common` is recorded as a base and not
expanded; an unvisited head is recorded in `commits` and its parents
are enqueued.  The structural fuel always suffices when initialized
with `queue.length + phiS store [] + 1`. -/
def collectAncestorsF (store : GStore) (common : List ByteStr) :
    Nat → List ByteStr → List ByteStr → List ByteStr → List ByteStr × List ByteStr
  | 0, _, commits, bases => (commits, bases)
  | fuel + 1, queue, commits, bases =>
      match queue with
      | [] => (commits, bases)
      | e :: rest =>
          if e ∈ common then collectAncestorsF store common fuel rest commits (insertSha e bases)
          else if e ∈ commits then collectAncestorsF store common fuel rest commits bases
          else collectAncestorsF store common fuel (rest ++ parentsOf store e)
                 (insertSha e commits) bases

/-- `_collect_ancestors(store, heads, common)`: all commits reachable
from `heads` but not in `common`, plus the `common` members reached. -/
def collect_ancestors (store : GStore) (heads common : List ByteStr) :
    List ByteStr × List ByteStr :=
  collectAncestorsF store common (heads.length + phiS store [] + 1) heads [] []

/-- Modelled from the spec: `_collect_filetree_revs` in
`dulwich/object_store.py` (body elided).  Per its docstring: collect
the SHAs of all files and directories under a tree, skipping submodule
(gitlink) entries; processed as a work list of (mode, sha) pairs with
structural fuel. -/
def collectFTR (store : GStore) : Nat → List (Nat × ByteStr) → List ByteStr → List ByteStr
  | 0, _, kset => kset
  | _ + 1, [], kset => kset
  | fuel + 1, (mode, sha) :: rest, kset =>
      if S_ISGITLINK mode ∨ sha ∈ kset then collectFTR store fuel rest kset
      else if S_ISDIR mode then
        let kset1 := insertSha sha kset
        let subEntries := match storeGet store sha with
          | some (.tree es) => es.map (fun x => (x.2.1, x.2.2))
          | _ => []
        collectFTR store fuel (subEntries ++ rest) kset1
      else collectFTR store fuel rest (insertSha sha kset)

/-- Fuel bound for the filetree walk. -/
def ftrFuel (store : GStore) : Nat :=
  store.length + (store.map (fun kv =>
    match kv.2 with
    | .tree es => 1 + es.length
    | _ => 1)).sum + 1

/-- A queued item of the finder: (sha, path hint, type number, leaf). -/
abbrev Todo := ByteStr × Option ByteStr × Option Nat × Bool

/-- The state of a `MissingObjectFinder` (its `__slots__`-equivalent
fields). -/
structure Finder where
  store : GStore
  objects_to_send : List Todo
  sha_done : List ByteStr
  remote_has : List ByteStr
  tagged : List (ByteStr × ByteStr)
  deriving DecidableEq

/-- Modelled from the spec: `MissingObjectFinder.add_todo` (absent from
the source; §4.I step 5).  Enqueue entries whose SHA is not already
done. -/
def addTodo (st : Finder) (todos : List Todo) : Finder :=
  { st with objects_to_send :=
      st.objects_to_send ++ todos.filter (fun e => decide (e.1 ∉ st.sha_done)) }

/-- The pop-until-fresh loop at the top of
`MissingObjectFinder.__next__` (real code): pop entries until one whose
SHA is not in `sha_done` is found. -/
def popTodo : List Todo → List ByteStr → Option (Todo × List Todo)
  | [], _ => none
  | t :: rest, sha_done =>
      if t.1 ∈ sha_done then popTodo rest sha_done else some (t, rest)

/-- `MissingObjectFinder.__next__` (real code in the source): pop a
fresh SHA, enqueue its referenced objects (commit tree; tree members
except gitlinks; tag target) unless it is a leaf, enqueue its pointing
tag if any, mark it done and return it with its pack hint. -/
def finderStep (st : Finder) : Option ((ByteStr × Option (Nat × Option ByteStr)) × Finder) :=
  match popTodo st.objects_to_send st.sha_done with
  | none => none
  | some ((sha, name, type_num, leaf), rest) =>
      let st1 : Finder := { st with objects_to_send := rest }
      let st2 : Finder :=
        if leaf then st1
        else
          match storeGet st1.store sha with
          | some (.commit t _) => addTodo st1 [(t, some [], some 2, false)]
          | some (.tree es) =>
              addTodo st1 ((es.filter (fun e => ¬ S_ISGITLINK e.2.1)).map
                (fun e => (e.2.2, some e.1,
                  some (if S_ISREG e.2.1 then 3 else 2), !S_ISDIR e.2.1)))
          | some (.tag ty target) => addTodo st1 [(target, none, some ty, false)]
          | _ => st1
      let st3 : Finder :=
        match st2.tagged.find? (fun p => p.1 == sha) with
        | some pr => addTodo st2 [(pr.2, none, none, true)]
        | none => st2
      let st4 : Finder := { st3 with sha_done := insertSha sha st3.sha_done }
      let hint : Option (Nat × Option ByteStr) :=
        match type_num with
        | none => none
        | some t => some (t, name)
      some ((sha, hint), st4)

/-- Iterate the finder, collecting the yielded SHAs. -/
def finderRun : Nat → Finder → List ByteStr
  | 0, _ => []
  | fuel + 1, st =>
      match finderStep st with
      | none => []
      | some ((sha, _), st') => sha :: finderRun fuel st'

/-- `MissingObjectFinder.__init__` (real code in the source, with the
elided helpers modelled above): split haves and wants, collect the
haves' ancestry, walk the wants against it, build `remote_has` from the
common commits' file trees plus the have-tags, and seed the send queue
with the missing commits, tags and others. -/
def mkFinder (store : GStore) (haves wants : List ByteStr) : Option Finder := do
  let (have_commits, have_tags, have_others) ← splitCT store true haves
  let (want_commits, want_tags, want_others) ← splitCT store false wants
  let all_ancestors := (collect_ancestors store have_commits []).1
  let mc := collect_ancestors store want_commits all_ancestors
  let missing_commits := mc.1
  let common_commits := mc.2
  let remote_has0 := common_commits.foldl (fun acc h =>
      match storeGet store h with
      | some (.commit t _) => collectFTR store (ftrFuel store) [(16384, t)] (insertSha h acc)
      | _ => insertSha h acc) []
  let remote_has := have_tags.foldl (fun acc t => insertSha t acc) remote_has0
  let objects_to_send : List Todo :=
    (missing_commits.map (fun w => (w, (none : Option ByteStr), some 1, false))) ++
    ((want_tags.filter (fun t => decide (t ∉ have_tags))).map
      (fun w => (w, (none : Option ByteStr), some 4, false))) ++
    ((want_others.filter (fun t => decide (t ∉ have_others))).map
      (fun w => (w, (none : Option ByteStr), (none : Option Nat), false)))
  some ⟨store, objects_to_send, remote_has, remote_has, []⟩

theorem popTodo_fresh : ∀ (todos : List Todo) (done : List ByteStr) (t : Todo)
    (rest : List Todo), popTodo todos done = some (t, rest) → t.1 ∉ done := by
  intro todos
  induction todos with
  | nil =>
      intro done t rest h
      cases h
  | cons x xs ih =>
      intro done t rest h
      simp only [popTodo] at h
      by_cases hx : x.1 ∈ done
      · rw [if_pos hx] at h
        exact ih done t rest h
      · rw [if_neg hx] at h
        obtain ⟨h1, -⟩ := Prod.mk.injEq .. ▸ Option.some.injEq .. ▸ h
        simp only [Option.some.injEq, Prod.mk.injEq] at h
        obtain ⟨rfl, -⟩ := h
        exact hx

theorem popTodo_none_iff : ∀ (todos : List Todo) (done : List ByteStr),
    popTodo todos done = none ↔ ∀ t ∈ todos, t.1 ∈ done := by
  intro todos
  induction todos with
  | nil =>
      intro done
      simp [popTodo]
  | cons x xs ih =>
      intro done
      simp only [popTodo]
      by_cases hx : x.1 ∈ done
      · rw [if_pos hx, ih]
        constructor
        · intro h t ht
          rcases List.mem_cons.mp ht with rfl | ht
          · exact hx
          · exact h t ht
        · intro h t ht
          exact h t (List.mem_cons_of_mem x ht)
      · rw [if_neg hx]
        constructor
        · intro h
          cases h
        · intro h
          exact absurd (h x (List.mem_cons_self x xs)) hx

theorem addTodo_fields (st : Finder) (todos : List Todo) :
    (addTodo st todos).sha_done = st.sha_done ∧
    (addTodo st todos).remote_has = st.remote_has ∧
    (addTodo st todos).store = st.store ∧
    (addTodo st todos).tagged = st.tagged := by
  simp [addTodo]

theorem finderStep_spec (st : Finder) (sha : ByteStr)
    (hint : Option (Nat × Option ByteStr)) (st' : Finder)
    (h : finderStep st = some ((sha, hint), st')) :
    sha ∉ st.sha_done ∧ st'.sha_done = insertSha sha st.sha_done ∧
      st'.remote_has = st.remote_has := by
  unfold finderStep at h
  cases hpop : popTodo st.objects_to_send st.sha_done with
  | none =>
      rw [hpop] at h
      cases h
  | some pr =>
      obtain ⟨⟨psha, pname, ptype, pleaf⟩, prest⟩ := pr
      rw [hpop] at h
      simp only [Option.some.injEq, Prod.mk.injEq] at h
      obtain ⟨⟨rfl, -⟩, hst⟩ := h
      have hfresh := popTodo_fresh _ _ _ _ hpop
      refine ⟨hfresh, ?_, ?_⟩
      all_goals
        rw [← hst]
        set st1 : Finder := { st with objects_to_send := prest } with hst1
        have h1 : st1.sha_done = st.sha_done ∧ st1.remote_has = st.remote_has := ⟨rfl, rfl⟩
        set st2 : Finder :=
          if pleaf then st1
          else
            match storeGet st1.store psha with
            | some (.commit t _) => addTodo st1 [(t, some [], some 2, false)]
            | some (.tree es) =>
                addTodo st1 ((es.filter (fun e => ¬ S_ISGITLINK e.2.1)).map
                  (fun e => (e.2.2, some e.1,
                    some (if S_ISREG e.2.1 then 3 else 2), !S_ISDIR e.2.1)))
            | some (.tag ty target) => addTodo st1 [(target, none, some ty, false)]
            | _ => st1 with hst2
        have h2 : st2.sha_done = st.sha_done ∧ st2.remote_has = st.remote_has := by
          rw [hst2]
          by_cases hl : pleaf
          · simpa [hl] using h1
          · simp only [hl, if_false]
            cases hsg : storeGet st1.store psha with
            | none => exact h1
            | some o =>
                cases o with
                | commit t ps => simpa [addTodo] using h1
                | tree es => simpa [addTodo] using h1
                | blob d => exact h1
                | tag ty target => simpa [addTodo] using h1
        cases htag : st2.tagged.find? (fun p => p.1 == psha) with
        | none => simp [htag, h2.1, h2.2]
        | some pr2 => simp [htag, addTodo, h2.1, h2.2]

theorem finderRun_spec (fuel : Nat) : ∀ st : Finder,
    (finderRun fuel st).Nodup ∧ ∀ o ∈ finderRun fuel st, o ∉ st.sha_done := by
  induction fuel with
  | zero =>
      intro st
      simp [finderRun]
  | succ fuel ih =>
      intro st
      unfold finderRun
      cases hstep : finderStep st with
      | none => simp
      | some pr =>
          obtain ⟨⟨sha, hint⟩, st'⟩ := pr
          obtain ⟨hfresh, hdone, hrem⟩ := finderStep_spec st sha hint st' hstep
          obtain ⟨hnd, hmem⟩ := ih st'
          constructor
          · refine List.nodup_cons.mpr ⟨?_, hnd⟩
            intro hcon
            have := hmem sha hcon
            rw [hdone, mem_insertSha] at this
            exact this (Or.inl rfl)
          · intro o ho
            rcases List.mem_cons.mp ho with rfl | ho
            · exact hfresh
            · have := hmem o ho
              rw [hdone, mem_insertSha] at this
              intro hcon
              exact this (Or.inr hcon)

theorem mkFinder_sha_done_eq (store : GStore) (haves wants : List ByteStr) (f : Finder)
    (h : mkFinder store haves wants = some f) : f.sha_done = f.remote_has := by
  simp only [mkFinder, bind, Option.bind_eq_some] at h
  obtain ⟨⟨hc, ht, ho⟩, -, h⟩ := h
  obtain ⟨⟨wc, wt, wo⟩, -, h⟩ := h
  simp only [Option.some.injEq] at h
  rw [← h]

/-- **C9** — Iterating a `MissingObjectFinder` yields each OID at most
once, and never yields an OID in the initially computed `remote_has`
set: across all `__next__` calls the returned SHAs are pairwise
distinct and disjoint from `remote_has`. -/
theorem missingObjectFinder_distinct (store : GStore) (haves wants : List ByteStr)
    (f : Finder) (fuel : Nat) (hmk : mkFinder store haves wants = some f) :
    (finderRun fuel f).Nodup ∧ ∀ o ∈ finderRun fuel f, o ∉ f.remote_has := by
  obtain ⟨hnd, hmem⟩ := finderRun_spec fuel f
  refine ⟨hnd, ?_⟩
  intro o ho
  have := hmem o ho
  rwa [mkFinder_sha_done_eq store haves wants f hmk] at this

/-- Witness for C9: a concrete finder over a two-object store (one
commit, its tree), wanting the commit with no haves. -/
theorem missingObjectFinder_distinct_witness :
    ∃ f, mkFinder [([10], GObj.commit [11] []), ([11], GObj.tree [])] [] [[10]] = some f ∧
      (finderRun 5 f).Nodup ∧ ∀ o ∈ finderRun 5 f, o ∉ f.remote_has := by
  have hsome : (mkFinder [([10], GObj.commit [11] []), ([11], GObj.tree [])]
      [] [[10]]).isSome = true := by decide
  refine ⟨(mkFinder [([10], GObj.commit [11] []), ([11], GObj.tree [])] [] [[10]]).get hsome,
    (Option.some_get hsome).symm, ?_⟩
  exact missingObjectFinder_distinct _ _ _ _ 5 (Option.some_get hsome).symm

/-- The OIDs an object references: a commit its tree and parents, a
tree its non-gitlink entries, a tag its target. -/
def refsOf (store : GStore) (x : ByteStr) : List ByteStr :=
  match storeGet store x with
  | some (.commit t ps) => t :: ps
  | some (.tree es) => (es.filter (fun e => ¬ S_ISGITLINK e.2.1)).map (fun e => e.2.2)
  | some (.tag _ target) => [target]
  | _ => []

/-- Object-graph reachability from a set of root OIDs. -/
inductive Reach (store : GStore) (roots : List ByteStr) : ByteStr → Prop where
  | root (x : ByteStr) : x ∈ roots → Reach store roots x
  | step (y x : ByteStr) : Reach store roots y → x ∈ refsOf store y → Reach store roots x

/-- Commit-ancestor reachability (parent edges only). -/
inductive PAnc (store : GStore) (roots : List ByteStr) : ByteStr → Prop where
  | root (x : ByteStr) : x ∈ roots → PAnc store roots x
  | step (y x : ByteStr) : PAnc store roots y → x ∈ parentsOf store y → PAnc store roots x

theorem isCommitB_iff (store : GStore) (k : ByteStr) :
    isCommitB store k = true ↔ ∃ t ps, storeGet store k = some (.commit t ps) := by
  unfold isCommitB
  cases h : storeGet store k with
  | none => simp
  | some o => cases o <;> simp

theorem splitCT_commits (store : GStore) (ign : Bool) :
    ∀ ws : List ByteStr, (∀ w ∈ ws, isCommitB store w = true) →
    ∃ cs, splitCT store ign ws = some (cs, [], []) ∧
      (∀ x, x ∈ cs ↔ x ∈ ws) := by
  intro ws
  induction ws with
  | nil =>
      intro _
      exact ⟨[], rfl, by simp⟩
  | cons e rest ih =>
      intro hall
      obtain ⟨cs, hsp, hmem⟩ := ih (fun w hw => hall w (List.mem_cons_of_mem e hw))
      obtain ⟨t, ps, hget⟩ := (isCommitB_iff store e).mp (hall e (List.mem_cons_self e rest))
      refine ⟨insertSha e cs, ?_, ?_⟩
      · simp only [splitCT, bind, hsp, Option.some_bind, hget]
      · intro x
        rw [mem_insertSha, hmem x, List.mem_cons]

theorem collectAncestorsF_mono (store : GStore) (common : List ByteStr) :
    ∀ (fuel : Nat) (queue commits bases : List ByteStr), ∀ x ∈ commits,
      x ∈ (collectAncestorsF store common fuel queue commits bases).1 := by
  intro fuel
  induction fuel with
  | zero =>
      intro queue commits bases x hx
      exact hx
  | succ fuel ih =>
      intro queue commits bases x hx
      cases queue with
      | nil => exact hx
      | cons e rest =>
          simp only [collectAncestorsF]
          by_cases hc : e ∈ common
          · rw [if_pos hc]
            exact ih rest commits _ x hx
          · rw [if_neg hc]
            by_cases hv : e ∈ commits
            · rw [if_pos hv]
              exact ih rest commits bases x hx
            · rw [if_neg hv]
              exact ih _ _ bases x ((mem_insertSha x e commits).mpr (Or.inr hx))

theorem collectAncestorsF_sound (store : GStore) (common R : List ByteStr) :
    ∀ (fuel : Nat) (queue commits bases : List ByteStr),
      (∀ q ∈ queue, PAnc store R q) → (∀ c ∈ commits, PAnc store R c) →
      ∀ x ∈ (collectAncestorsF store common fuel queue commits bases).1,
        PAnc store R x := by
  intro fuel
  induction fuel with
  | zero =>
      intro queue commits bases _ hcommits x hx
      exact hcommits x hx
  | succ fuel ih =>
      intro queue commits bases hqueue hcommits x hx
      cases queue with
      | nil => exact hcommits x hx
      | cons e rest =>
          simp only [collectAncestorsF] at hx
          have hrest : ∀ q ∈ rest, PAnc store R q :=
            fun q hq => hqueue q (List.mem_cons_of_mem e hq)
          have he : PAnc store R e := hqueue e (List.mem_cons_self e rest)
          by_cases hc : e ∈ common
          · rw [if_pos hc] at hx
            exact ih rest commits _ hrest hcommits x hx
          · rw [if_neg hc] at hx
            by_cases hv : e ∈ commits
            · rw [if_pos hv] at hx
              exact ih rest commits bases hrest hcommits x hx
            · rw [if_neg hv] at hx
              refine ih _ _ bases ?_ ?_ x hx
              · intro q hq
                rcases List.mem_append.mp hq with hq | hq
                · exact hrest q hq
                · exact PAnc.step e q he hq
              · intro c hc2
                rcases (mem_insertSha c e commits).mp hc2 with rfl | hc2
                · exact he
                · exact hcommits c hc2

theorem collectAncestorsF_notin_common (store : GStore) (common : List ByteStr) :
    ∀ (fuel : Nat) (queue commits bases : List ByteStr),
      (∀ c ∈ commits, c ∉ common) →
      ∀ x ∈ (collectAncestorsF store common fuel queue commits bases).1,
        x ∉ common := by
  intro fuel
  induction fuel with
  | zero =>
      intro queue commits bases hcommits x hx
      exact hcommits x hx
  | succ fuel ih =>
      intro queue commits bases hcommits x hx
      cases queue with
      | nil => exact hcommits x hx
      | cons e rest =>
          simp only [collectAncestorsF] at hx
          by_cases hc : e ∈ common
          · rw [if_pos hc] at hx
            exact ih rest commits _ hcommits x hx
          · rw [if_neg hc] at hx
            by_cases hv : e ∈ commits
            · rw [if_pos hv] at hx
              exact ih rest commits bases hcommits x hx
            · rw [if_neg hv] at hx
              refine ih _ _ bases ?_ x hx
              intro c hc2
              rcases (mem_insertSha c e commits).mp hc2 with rfl | hc2
              · exact hc
              · exact hcommits c hc2

theorem collectAncestorsF_typed (store : GStore) (common : List ByteStr)
    (hp : ∀ y p, p ∈ parentsOf store y → isCommitB store p = true) :
    ∀ (fuel : Nat) (queue commits bases : List ByteStr),
      (∀ q ∈ queue, isCommitB store q = true) →
      (∀ c ∈ commits, isCommitB store c = true) →
      ∀ x ∈ (collectAncestorsF store common fuel queue commits bases).1,
        isCommitB store x = true := by
  intro fuel
  induction fuel with
  | zero =>
      intro queue commits bases _ hcommits x hx
      exact hcommits x hx
  | succ fuel ih =>
      intro queue commits bases hqueue hcommits x hx
      cases queue with
      | nil => exact hcommits x hx
      | cons e rest =>
          simp only [collectAncestorsF] at hx
          have hrest : ∀ q ∈ rest, isCommitB store q = true :=
            fun q hq => hqueue q (List.mem_cons_of_mem e hq)
          have he := hqueue e (List.mem_cons_self e rest)
          by_cases hc : e ∈ common
          · rw [if_pos hc] at hx
            exact ih rest commits _ hrest hcommits x hx
          · rw [if_neg hc] at hx
            by_cases hv : e ∈ commits
            · rw [if_pos hv] at hx
              exact ih rest commits bases hrest hcommits x hx
            · rw [if_neg hv] at hx
              refine ih _ _ bases ?_ ?_ x hx
              · intro q hq
                rcases List.mem_append.mp hq with hq | hq
                · exact hrest q hq
                · exact hp e q hq
              · intro c hc2
                rcases (mem_insertSha c e commits).mp hc2 with rfl | hc2
                · exact he
                · exact hcommits c hc2

theorem collectAncestorsF_bases_common (store : GStore) (common : List ByteStr) :
    ∀ (fuel : Nat) (queue commits bases : List ByteStr),
      (∀ b ∈ bases, b ∈ common) →
      ∀ x ∈ (collectAncestorsF store common fuel queue commits bases).2,
        x ∈ common := by
  intro fuel
  induction fuel with
  | zero =>
      intro queue commits bases hbases x hx
      exact hbases x hx
  | succ fuel ih =>
      intro queue commits bases hbases x hx
      cases queue with
      | nil => exact hbases x hx
      | cons e rest =>
          simp only [collectAncestorsF] at hx
          by_cases hc : e ∈ common
          · rw [if_pos hc] at hx
            refine ih rest commits _ ?_ x hx
            intro b hb
            rcases (mem_insertSha b e bases).mp hb with rfl | hb
            · exact hc
            · exact hbases b hb
          · rw [if_neg hc] at hx
            by_cases hv : e ∈ commits
            · rw [if_pos hv] at hx
              exact ih rest commits bases hbases x hx
            · rw [if_neg hv] at hx
              exact ih _ _ bases hbases x hx

theorem collectAncestorsF_empty_iff (store : GStore) (common : List ByteStr) :
    ∀ (fuel : Nat) (queue bases : List ByteStr), queue.length ≤ fuel →
      ((collectAncestorsF store common fuel queue [] bases).1 = [] ↔
        ∀ e ∈ queue, e ∈ common) := by
  intro fuel
  induction fuel with
  | zero =>
      intro queue bases hlen
      have : queue = [] := List.length_eq_zero.mp (by omega)
      subst this
      simp [collectAncestorsF]
  | succ fuel ih =>
      intro queue bases hlen
      cases queue with
      | nil => simp [collectAncestorsF]
      | cons e rest =>
          simp only [collectAncestorsF]
          by_cases hc : e ∈ common
          · rw [if_pos hc, ih rest _ (by simp only [List.length_cons] at hlen; omega)]
            constructor
            · intro h q hq
              rcases List.mem_cons.mp hq with rfl | hq
              · exact hc
              · exact h q hq
            · intro h q hq
              exact h q (List.mem_cons_of_mem e hq)
          · rw [if_neg hc]
            simp only [List.not_mem_nil, if_false]
            constructor
            · intro h
              have he : e ∈ (collectAncestorsF store common fuel
                  (rest ++ parentsOf store e) (insertSha e []) bases).1 :=
                collectAncestorsF_mono store common fuel _ _ bases e
                  ((mem_insertSha e e []).mpr (Or.inl rfl))
              rw [h] at he
              cases he
            · intro h
              exact absurd (h e (List.mem_cons_self e rest)) hc

theorem phiS_cons (kv : ByteStr × GObj) (rest : GStore) (visited : List ByteStr) :
    phiS (kv :: rest) visited =
      (if kv.1 ∉ visited then 1 + (parentsOfObj kv.2).length else 0) + phiS rest visited := by
  by_cases h : kv.1 ∈ visited
  · simp [phiS, List.filter_cons, h]
  · simp [phiS, List.filter_cons, h]

theorem phiS_mono (store : GStore) (e : ByteStr) (visited : List ByteStr) :
    phiS store (e :: visited) ≤ phiS store visited := by
  induction store with
  | nil => simp [phiS]
  | cons kv rest ih =>
      rw [phiS_cons, phiS_cons]
      by_cases h : kv.1 ∈ visited
      · rw [if_neg (by simp [h]), if_neg (by simp [h])]
        omega
      · by_cases h2 : kv.1 = e
        · rw [if_neg (by simp [h2]), if_pos h]
          omega
        · rw [if_pos (by simp [h, h2, List.mem_cons]), if_pos h]
          omega

theorem phiS_visit (store : GStore) : ∀ (e : ByteStr) (visited : List ByteStr) (obj : GObj),
    storeGet store e = some obj → e ∉ visited →
    phiS store (e :: visited) + 1 + (parentsOfObj obj).length ≤ phiS store visited := by
  induction store with
  | nil =>
      intro e visited obj hg _
      cases hg
  | cons kv rest ih =>
      intro e visited obj hg he
      by_cases h2 : kv.1 = e
      · have hobj : kv.2 = obj := by
          unfold storeGet at hg
          rw [List.find?_cons_of_pos _ (by simp [h2])] at hg
          simpa using hg
        rw [phiS_cons, phiS_cons, if_neg (by simp [h2]), if_pos (by rw [h2]; exact he)]
        have := phiS_mono rest e visited
        rw [hobj]
        omega
      · have hg' : storeGet rest e = some obj := by
          unfold storeGet at hg ⊢
          rwa [List.find?_cons_of_neg _ (by simp [h2])] at hg
        have := ih e visited obj hg' he
        rw [phiS_cons, phiS_cons]
        by_cases h : kv.1 ∈ visited
        · rw [if_neg (by simp [h]), if_neg (by simp [h])]
          omega
        · rw [if_pos (by simp [h, h2, List.mem_cons]), if_pos h]
          omega

theorem parentsOf_of_missing (store : GStore) (e : ByteStr)
    (h : storeGet store e = none) : parentsOf store e = [] := by
  simp [parentsOf, h]

theorem collectAncestorsF_closure (store : GStore) :
    ∀ (fuel : Nat) (queue visited bases : List ByteStr),
      phiS store visited + queue.length < fuel →
      (∀ v ∈ visited, ∀ p ∈ parentsOf store v, p ∈ visited ∨ p ∈ queue) →
      (∀ q ∈ queue, q ∈ (collectAncestorsF store [] fuel queue visited bases).1) ∧
      (∀ v ∈ (collectAncestorsF store [] fuel queue visited bases).1,
        ∀ p ∈ parentsOf store v,
          p ∈ (collectAncestorsF store [] fuel queue visited bases).1) := by
  intro fuel
  induction fuel with
  | zero =>
      intro queue visited bases hf _
      omega
  | succ fuel ih =>
      intro queue visited bases hf hinv
      cases queue with
      | nil =>
          simp only [collectAncestorsF]
          refine ⟨by simp, ?_⟩
          intro v hv p hp
          rcases hinv v hv p hp with h | h
          · exact h
          · cases h
      | cons e rest =>
          simp only [collectAncestorsF, List.not_mem_nil, if_false]
          by_cases hv : e ∈ visited
          · rw [if_pos hv]
            have hlen : phiS store visited + rest.length < fuel := by
              simp only [List.length_cons] at hf
              omega
            have hinv' : ∀ v ∈ visited, ∀ p ∈ parentsOf store v,
                p ∈ visited ∨ p ∈ rest := by
              intro v hv2 p hp
              rcases hinv v hv2 p hp with h | h
              · exact Or.inl h
              · rcases List.mem_cons.mp h with rfl | h
                · exact Or.inl hv
                · exact Or.inr h
            obtain ⟨hq, hcl⟩ := ih rest visited bases hlen hinv'
            refine ⟨?_, hcl⟩
            intro q hq2
            rcases List.mem_cons.mp hq2 with rfl | hq2
            · exact collectAncestorsF_mono store [] fuel rest visited bases q hv
            · exact hq q hq2
          · rw [if_neg hv]
            have hins : insertSha e visited = e :: visited := by
              rw [insertSha, if_neg hv]
            rw [hins]
            have hlen : phiS store (e :: visited) + (rest ++ parentsOf store e).length
                < fuel := by
              simp only [List.length_cons] at hf
              rw [List.length_append]
              cases hg : storeGet store e with
              | none =>
                  rw [parentsOf_of_missing store e hg]
                  have := phiS_mono store e visited
                  simp only [List.length_nil]
                  omega
              | some obj =>
                  have hvis := phiS_visit store e visited obj hg hv
                  have hpeq : parentsOf store e = parentsOfObj obj := by
                    simp [parentsOf, hg]
                  rw [hpeq]
                  omega
            have hinv' : ∀ v ∈ e :: visited, ∀ p ∈ parentsOf store v,
                p ∈ e :: visited ∨ p ∈ rest ++ parentsOf store e := by
              intro v hv2 p hp
              rcases List.mem_cons.mp hv2 with rfl | hv2
              · exact Or.inr (List.mem_append.mpr (Or.inr hp))
              · rcases hinv v hv2 p hp with h | h
                · exact Or.inl (List.mem_cons_of_mem e h)
                · rcases List.mem_cons.mp h with rfl | h
                  · exact Or.inl (List.mem_cons_self p visited)
                  · exact Or.inr (List.mem_append.mpr (Or.inl h))
            obtain ⟨hq, hcl⟩ := ih (rest ++ parentsOf store e) (e :: visited) bases
              hlen hinv'
            refine ⟨?_, hcl⟩
            intro q hq2
            rcases List.mem_cons.mp hq2 with rfl | hq2
            · exact collectAncestorsF_mono store [] fuel _ _ bases q
                (List.mem_cons_self q visited)
            · exact hq q (List.mem_append.mpr (Or.inl hq2))

/-- Well-typed store: a commit's tree field names a non-commit,
non-tag object; a commit's parents name commits; a tree's non-gitlink
entries name non-commit, non-tag objects. -/
def wellTyped (store : GStore) : Bool :=
  store.all fun kv =>
    match kv.2 with
    | .commit t ps => notCTB store t && ps.all (fun p => isCommitB store p)
    | .tree es => es.all (fun e => S_ISGITLINK e.2.1 || notCTB store e.2.2)
    | _ => true

theorem storeGet_mem (store : GStore) (k : ByteStr) (o : GObj)
    (h : storeGet store k = some o) : (k, o) ∈ store := by
  unfold storeGet at h
  cases hf : store.find? (fun p => p.1 == k) with
  | none =>
      rw [hf] at h
      cases h
  | some kv =>
      rw [hf] at h
      have h2 : kv.2 = o := by simpa using h
      have hm := List.mem_of_find?_eq_some hf
      have hp : kv.1 = k := by simpa using List.find?_some hf
      obtain ⟨k1, o1⟩ := kv
      simp only at hp h2
      subst hp
      subst h2
      exact hm

theorem wt_commit (store : GStore) (hwt : wellTyped store = true) (y t : ByteStr)
    (ps : List ByteStr) (hg : storeGet store y = some (.commit t ps)) :
    notCTB store t = true ∧ ∀ p ∈ ps, isCommitB store p = true := by
  have hm := storeGet_mem store y _ hg
  have := (List.all_eq_true.mp hwt) _ hm
  simp only [Bool.and_eq_true, List.all_eq_true] at this
  exact this

theorem wt_tree (store : GStore) (hwt : wellTyped store = true) (y : ByteStr)
    (es : List (ByteStr × Nat × ByteStr)) (hg : storeGet store y = some (.tree es)) :
    ∀ e ∈ es, S_ISGITLINK e.2.1 = true ∨ notCTB store e.2.2 = true := by
  have hm := storeGet_mem store y _ hg
  have h := (List.all_eq_true.mp hwt) _ hm
  simp only [List.all_eq_true, Bool.or_eq_true] at h
  exact h

theorem parents_commits (store : GStore) (hwt : wellTyped store = true) :
    ∀ y p, p ∈ parentsOf store y → isCommitB store p = true := by
  intro y p hp
  unfold parentsOf at hp
  cases hg : storeGet store y with
  | none =>
      rw [hg] at hp
      cases hp
  | some o =>
      rw [hg] at hp
      cases o with
      | commit t ps => exact (wt_commit store hwt y t ps hg).2 p hp
      | tree es => cases hp
      | blob d => cases hp
      | tag ty tg => cases hp

theorem isCommitB_not_tag (store : GStore) (k : ByteStr)
    (h : isCommitB store k = true) : isTagB store k = false := by
  obtain ⟨t, ps, hg⟩ := (isCommitB_iff store k).mp h
  unfold isTagB
  rw [hg]

theorem notCTB_excl (store : GStore) (k : ByteStr) (h : notCTB store k = true) :
    isCommitB store k = false ∧ isTagB store k = false := by
  unfold notCTB at h
  unfold isCommitB isTagB
  cases hg : storeGet store k with
  | none => exact ⟨rfl, rfl⟩
  | some o =>
      rw [hg] at h
      cases o with
      | commit t ps => exact Bool.noConfusion h
      | tree es => exact ⟨rfl, rfl⟩
      | blob d => exact ⟨rfl, rfl⟩
      | tag ty tg => exact Bool.noConfusion h

theorem reach_commit_panc (store : GStore) (roots : List ByteStr)
    (hwt : wellTyped store = true)
    (hroots : ∀ h ∈ roots, isCommitB store h = true) :
    ∀ x, Reach store roots x →
      (isCommitB store x = true → PAnc store roots x) ∧ isTagB store x = false := by
  intro x hx
  induction hx with
  | root x hx =>
      exact ⟨fun _ => PAnc.root x hx, isCommitB_not_tag store x (hroots x hx)⟩
  | step y x hy hxy ih =>
      cases hg : storeGet store y with
      | none =>
          rw [refsOf, hg] at hxy
          cases hxy
      | some o =>
          cases o with
          | blob d =>
              rw [refsOf, hg] at hxy
              cases hxy
          | tag ty tg =>
              have : isTagB store y = true := by
                unfold isTagB
                rw [hg]
              rw [ih.2] at this
              cases this
          | commit t ps =>
              rw [refsOf, hg] at hxy
              have hyP : PAnc store roots y := by
                apply ih.1
                unfold isCommitB
                rw [hg]
              rcases List.mem_cons.mp hxy with rfl | hxy
              · obtain ⟨hnc, -⟩ := wt_commit store hwt y x ps hg
                obtain ⟨hc, ht⟩ := notCTB_excl store x hnc
                refine ⟨fun hcon => ?_, ht⟩
                rw [hc] at hcon
                cases hcon
              · obtain ⟨-, hpc⟩ := wt_commit store hwt y t ps hg
                have hxc := hpc x hxy
                refine ⟨fun _ => PAnc.step y x hyP ?_, isCommitB_not_tag store x hxc⟩
                unfold parentsOf
                rw [hg]
                exact hxy
          | tree es =>
              rw [refsOf, hg] at hxy
              obtain ⟨e, he, heq⟩ := List.mem_map.mp hxy
              have hef := List.mem_filter.mp he
              have hwt3 := wt_tree store hwt y es hg e hef.1
              rcases hwt3 with hgl | hnc
              · have : ¬ S_ISGITLINK e.2.1 = true := by simpa using hef.2
                exact absurd hgl this
              · rw [← heq] at *
                obtain ⟨hc, ht⟩ := notCTB_excl store e.2.2 hnc
                refine ⟨fun hcon => ?_, ht⟩
                rw [hc] at hcon
                cases hcon

theorem panc_reach (store : GStore) (roots : List ByteStr) :
    ∀ x, PAnc store roots x → Reach store roots x := by
  intro x hx
  induction hx with
  | root x hx => exact Reach.root x hx
  | step y x hy hxy ih =>
      refine Reach.step y x ih ?_
      unfold parentsOf at hxy
      cases hg : storeGet store y with
      | none =>
          rw [hg] at hxy
          cases hxy
      | some o =>
          rw [hg] at hxy
          cases o with
          | commit t ps =>
              rw [refsOf, hg]
              exact List.mem_cons_of_mem t hxy
          | tree es => cases hxy
          | blob d => cases hxy
          | tag ty tg => cases hxy

theorem panc_transfer (store : GStore) (R1 R2 : List ByteStr)
    (h : ∀ x, x ∈ R1 → x ∈ R2) :
    ∀ x, PAnc store R1 x → PAnc store R2 x := by
  intro x hx
  induction hx with
  | root x hx => exact PAnc.root x (h x hx)
  | step y x hy hxy ih => exact PAnc.step y x ih hxy

theorem reach_transfer (store : GStore) (R1 R2 : List ByteStr)
    (h : ∀ x, x ∈ R1 → x ∈ R2) :
    ∀ x, Reach store R1 x → Reach store R2 x := by
  intro x hx
  induction hx with
  | root x hx => exact Reach.root x (h x hx)
  | step y x hy hxy ih => exact Reach.step y x ih hxy

theorem collectFTR_elems (store : GStore) (hwt : wellTyped store = true) :
    ∀ (fuel : Nat) (worklist : List (Nat × ByteStr)) (kset : List ByteStr),
      (∀ it ∈ worklist, S_ISGITLINK it.1 = false → notCTB store it.2 = true) →
      ∀ x ∈ collectFTR store fuel worklist kset, x ∈ kset ∨ notCTB store x = true := by
  intro fuel
  induction fuel with
  | zero =>
      intro worklist kset _ x hx
      exact Or.inl hx
  | succ fuel ih =>
      intro worklist kset hinv x hx
      cases worklist with
      | nil => exact Or.inl hx
      | cons it rest =>
          obtain ⟨mode, sha⟩ := it
          have hrest : ∀ it ∈ rest, S_ISGITLINK it.1 = false → notCTB store it.2 = true :=
            fun it hit => hinv it (List.mem_cons_of_mem _ hit)
          simp only [collectFTR] at hx
          by_cases hskip : S_ISGITLINK mode = true ∨ sha ∈ kset
          · rw [if_pos (by simpa using hskip)] at hx
            exact ih rest kset hrest x hx
          · rw [if_neg (by simpa using hskip)] at hx
            have hgl : S_ISGITLINK mode = false := by
              rcases Bool.eq_false_or_eq_true (S_ISGITLINK mode) with h | h
              · exact absurd (Or.inl h) hskip
              · exact h
            have hsha : notCTB store sha = true :=
              hinv (mode, sha) (List.mem_cons_self _ rest) hgl
            by_cases hdir : S_ISDIR mode = true
            · rw [if_pos hdir] at hx
              have hsub : ∀ it ∈ ((match storeGet store sha with
                  | some (.tree es) => es.map (fun x => (x.2.1, x.2.2))
                  | _ => ([] : List (Nat × ByteStr))) ++ rest),
                  S_ISGITLINK it.1 = false → notCTB store it.2 = true := by
                intro it hit hgl2
                rcases List.mem_append.mp hit with hit | hit
                · cases hg : storeGet store sha with
                  | none =>
                      rw [hg] at hit
                      cases hit
                  | some o =>
                      rw [hg] at hit
                      cases o with
                      | tree es =>
                          obtain ⟨e, he, heq⟩ := List.mem_map.mp hit
                          rcases wt_tree store hwt sha es hg e he with hge | hne
                          · rw [← heq] at hgl2
                            simp only at hgl2
                            rw [hge] at hgl2
                            cases hgl2
                          · rw [← heq]
                            exact hne
                      | commit t ps => cases hit
                      | blob d => cases hit
                      | tag ty tg => cases hit
                · exact hrest it hit hgl2
              have := ih _ _ hsub x hx
              rcases this with hmem | hne
              · rcases (mem_insertSha x sha kset).mp hmem with rfl | hmem
                · exact Or.inr hsha
                · exact Or.inl hmem
              · exact Or.inr hne
            · rw [if_neg hdir] at hx
              have := ih rest _ hrest x hx
              rcases this with hmem | hne
              · rcases (mem_insertSha x sha kset).mp hmem with rfl | hmem
                · exact Or.inr hsha
                · exact Or.inl hmem
              · exact Or.inr hne

theorem remoteHasFold_elems (store : GStore) (hwt : wellTyped store = true) :
    ∀ (l acc : List ByteStr),
      ∀ x ∈ l.foldl (fun acc h =>
          match storeGet store h with
          | some (.commit t _) =>
              collectFTR store (ftrFuel store) [(16384, t)] (insertSha h acc)
          | _ => insertSha h acc) acc,
        x ∈ acc ∨ x ∈ l ∨ notCTB store x = true := by
  intro l
  induction l with
  | nil =>
      intro acc x hx
      exact Or.inl hx
  | cons h rest ih =>
      intro acc x hx
      rw [List.foldl_cons] at hx
      have hstep := ih _ x hx
      have hacc : ∀ z, z ∈ (match storeGet store h with
          | some (.commit t _) =>
              collectFTR store (ftrFuel store) [(16384, t)] (insertSha h acc)
          | _ => insertSha h acc) → z ∈ acc ∨ z = h ∨ notCTB store z = true := by
        intro z hz
        cases hg : storeGet store h with
        | none =>
            rw [hg] at hz
            rcases (mem_insertSha z h acc).mp hz with rfl | hz
            · exact Or.inr (Or.inl rfl)
            · exact Or.inl hz
        | some o =>
            rw [hg] at hz
            cases o with
            | commit t ps =>
                have hroot : ∀ it ∈ ([(16384, t)] : List (Nat × ByteStr)),
                    S_ISGITLINK it.1 = false → notCTB store it.2 = true := by
                  intro it hit _
                  rcases List.mem_singleton.mp hit with rfl
                  exact (wt_commit store hwt h t ps hg).1
                have := collectFTR_elems store hwt (ftrFuel store) [(16384, t)]
                  (insertSha h acc) hroot z hz
                rcases this with hmem | hne
                · rcases (mem_insertSha z h acc).mp hmem with rfl | hmem
                  · exact Or.inr (Or.inl rfl)
                  · exact Or.inl hmem
                · exact Or.inr (Or.inr hne)
            | tree es =>
                rcases (mem_insertSha z h acc).mp hz with rfl | hz
                · exact Or.inr (Or.inl rfl)
                · exact Or.inl hz
            | blob d =>
                rcases (mem_insertSha z h acc).mp hz with rfl | hz
                · exact Or.inr (Or.inl rfl)
                · exact Or.inl hz
            | tag ty tg =>
                rcases (mem_insertSha z h acc).mp hz with rfl | hz
                · exact Or.inr (Or.inl rfl)
                · exact Or.inl hz
      rcases hstep with hin | hin | hin
      · rcases hacc x hin with h1 | h1 | h1
        · exact Or.inl h1
        · exact Or.inr (Or.inl (by rw [h1]; exact List.mem_cons_self h rest))
        · exact Or.inr (Or.inr h1)
      · exact Or.inr (Or.inl (List.mem_cons_of_mem h hin))
      · exact Or.inr (Or.inr hin)

theorem finderRun_nil_iff (fuel : Nat) (st : Finder) :
    finderRun (fuel + 1) st = [] ↔ finderStep st = none := by
  unfold finderRun
  cases h : finderStep st with
  | none => simp
  | some pr =>
      obtain ⟨⟨sha, hint⟩, st'⟩ := pr
      simp

theorem finderStep_none_iff (st : Finder) :
    finderStep st = none ↔ popTodo st.objects_to_send st.sha_done = none := by
  unfold finderStep
  cases h : popTodo st.objects_to_send st.sha_done with
  | none => simp
  | some pr =>
      obtain ⟨⟨sha, name, ty, leaf⟩, rest⟩ := pr
      simp

/-- **C7** — For every well-typed object store and sets of commit OIDs
`H` (haves) and `W` (wants), the stream of OIDs produced by
`MissingObjectFinder(haves=H, wants=W)` is empty if and only if every
OID reachable from `W` is reachable from `H`. -/
theorem missingObjects_empty_iff (store : GStore) (H W : List ByteStr) (f : Finder)
    (fuel : Nat)
    (hwt : wellTyped store = true)
    (hH : ∀ h ∈ H, isCommitB store h = true)
    (hW : ∀ w ∈ W, isCommitB store w = true)
    (hmk : mkFinder store H W = some f) :
    (finderRun (fuel + 1) f = [] ↔ ∀ x, Reach store W x → Reach store H x) := by
  obtain ⟨Hc, hspH, hmemH⟩ := splitCT_commits store true H hH
  obtain ⟨Wc, hspW, hmemW⟩ := splitCT_commits store false W hW
  simp only [mkFinder, bind, hspH, hspW, Option.some_bind, List.filter_nil,
    List.map_nil, List.append_nil, List.foldl_nil, Option.some.injEq] at hmk
  subst hmk
  have hWcC : ∀ w ∈ Wc, isCommitB store w = true := by
    intro w hw
    exact hW w ((hmemW w).mp hw)
  have hHcC : ∀ h ∈ Hc, isCommitB store h = true := by
    intro h hh
    exact hH h ((hmemH h).mp hh)
  rw [finderRun_nil_iff, finderStep_none_iff]
  simp only [popTodo_none_iff, List.mem_map, forall_exists_index, and_imp,
    forall_apply_eq_imp_iff₂]
  have hstep1 : (∀ m ∈ (collect_ancestors store Wc
        (collect_ancestors store Hc []).1).1,
      m ∈ (collect_ancestors store Wc (collect_ancestors store Hc []).1).2.foldl
        (fun acc h =>
          match storeGet store h with
          | some (.commit t _) =>
              collectFTR store (ftrFuel store) [(16384, t)] (insertSha h acc)
          | _ => insertSha h acc) []) ↔
      (collect_ancestors store Wc (collect_ancestors store Hc []).1).1 = [] := by
    constructor
    · intro hall
      rw [List.eq_nil_iff_forall_not_mem]
      intro m hm
      have hRH := remoteHasFold_elems store hwt _ [] m (hall m hm)
      have hmC : isCommitB store m = true := by
        rw [collect_ancestors] at hm
        exact collectAncestorsF_typed store _ (parents_commits store hwt) _ Wc [] []
          hWcC (by intro c hc; cases hc) m hm
      have hmA : m ∉ (collect_ancestors store Hc []).1 := by
        rw [collect_ancestors] at hm
        exact collectAncestorsF_notin_common store _ _ Wc [] []
          (by intro c hc; cases hc) m hm
      rcases hRH with h0 | hCC | hnct
      · cases h0
      · have : m ∈ (collect_ancestors store Hc []).1 := by
          rw [collect_ancestors] at hCC
          exact collectAncestorsF_bases_common store _ _ Wc [] []
            (by intro b hb; cases hb) m hCC
        exact hmA this
      · rw [(notCTB_excl store m hnct).1] at hmC
        cases hmC
    · intro hnil m hm
      rw [hnil] at hm
      cases hm
  rw [hstep1]
  rw [collect_ancestors, collectAncestorsF_empty_iff store _ _ Wc []
    (by omega)]
  constructor
  · intro hsub x hx
    induction hx with
    | root x hx =>
        have hxWc : x ∈ Wc := (hmemW x).mpr hx
        have hxA := hsub x hxWc
        have hxP : PAnc store Hc x := by
          rw [collect_ancestors] at hxA
          exact collectAncestorsF_sound store [] Hc _ Hc [] []
            (fun q hq => PAnc.root q hq) (by intro c hc; cases hc) x hxA
        exact reach_transfer store Hc H (fun z hz => (hmemH z).mp hz) x
          (panc_reach store Hc x hxP)
    | step y x hy hxy ih => exact Reach.step y x ih hxy
  · intro hsub w hw
    have hwW : w ∈ W := (hmemW w).mp hw
    have hreach : Reach store H w := hsub w (Reach.root w hwW)
    have hwP : PAnc store H w :=
      (reach_commit_panc store H hwt hH w hreach).1 (hW w hwW)
    have hwPc : PAnc store Hc w :=
      panc_transfer store H Hc (fun z hz => (hmemH z).mpr hz) w hwP
    have hclos := collectAncestorsF_closure store
      (Hc.length + phiS store [] + 1) Hc [] [] (by omega)
      (by intro v hv; cases hv)
    rw [collect_ancestors]
    clear hsub hw hwW hreach hwP
    induction hwPc with
    | root z hz => exact hclos.1 z hz
    | step y z hy hyz ih =>
        exact hclos.2 y ih z hyz

/-- Witness for C7: a two-object store where haves and wants are the
same single commit. -/
theorem missingObjects_empty_iff_witness :
    ∃ f, mkFinder [([10], GObj.commit [11] []), ([11], GObj.tree [])]
        [[10]] [[10]] = some f ∧
      (finderRun 3 f = [] ↔ ∀ x,
        Reach [([10], GObj.commit [11] []), ([11], GObj.tree [])] [[10]] x →
        Reach [([10], GObj.commit [11] []), ([11], GObj.tree [])] [[10]] x) := by
  have hsome : (mkFinder [([10], GObj.commit [11] []), ([11], GObj.tree [])]
      [[10]] [[10]]).isSome = true := by decide
  refine ⟨(mkFinder [([10], GObj.commit [11] []), ([11], GObj.tree [])]
      [[10]] [[10]]).get hsome, (Option.some_get hsome).symm, ?_⟩
  exact missingObjects_empty_iff _ [[10]] [[10]] _ 2 (by decide) (by decide) (by decide)
    (Option.some_get hsome).symm

/- ---------------------------------------------------------------------
   Object codec (dulwich/objects.py: ShaFile.from_raw_string,
   serialization of Blob/Tree/Commit/Tag, ShaFile.sha; bodies elided in
   the source, modelled from the specification §3 and §4.B)
   --------------------------------------------------------------------- -/

/-- Split a byte string at the first newline (0x0A): the line and the
remainder, or `none` when no newline occurs. -/
def splitNL : ByteStr → Option (ByteStr × ByteStr)
  | [] => none
  | c :: rest =>
      if c = 10 then some ([], rest)
      else (splitNL rest).map (fun p => (c :: p.1, p.2))

/-- Split a byte string at the first space (0x20). -/
def splitSP : ByteStr → Option (ByteStr × ByteStr)
  | [] => none
  | c :: rest =>
      if c = 32 then some ([], rest)
      else (splitSP rest).map (fun p => (c :: p.1, p.2))

/-- Split a byte string at the first NUL (0x00). -/
def splitNUL : ByteStr → Option (ByteStr × ByteStr)
  | [] => none
  | c :: rest =>
      if c = 0 then some ([], rest)
      else (splitNUL rest).map (fun p => (c :: p.1, p.2))

theorem splitNL_append (a z : ByteStr) (ha : ∀ c ∈ a, c ≠ 10) :
    splitNL (a ++ 10 :: z) = some (a, z) := by
  induction a with
  | nil => simp [splitNL]
  | cons c rest ih =>
      have hc : c ≠ 10 := ha c (List.mem_cons_self c rest)
      simp only [List.cons_append, splitNL, if_neg hc]
      rw [List.append_eq, ih (fun d hd => ha d (List.mem_cons_of_mem c hd))]
      rfl

theorem splitSP_append (a z : ByteStr) (ha : ∀ c ∈ a, c ≠ 32) :
    splitSP (a ++ 32 :: z) = some (a, z) := by
  induction a with
  | nil => simp [splitSP]
  | cons c rest ih =>
      have hc : c ≠ 32 := ha c (List.mem_cons_self c rest)
      simp only [List.cons_append, splitSP, if_neg hc]
      rw [List.append_eq, ih (fun d hd => ha d (List.mem_cons_of_mem c hd))]
      rfl

theorem splitNUL_append (a z : ByteStr) (ha : ∀ c ∈ a, c ≠ 0) :
    splitNUL (a ++ 0 :: z) = some (a, z) := by
  induction a with
  | nil => simp [splitNUL]
  | cons c rest ih =>
      have hc : c ≠ 0 := ha c (List.mem_cons_self c rest)
      simp only [List.cons_append, splitNUL, if_neg hc]
      rw [List.append_eq, ih (fun d hd => ha d (List.mem_cons_of_mem c hd))]
      rfl

/-- Header-value folding: each newline inside a header value is
serialized as a newline followed by a continuation space (§4.B,
`_parse_message` in reverse). -/
def foldValue : ByteStr → ByteStr
  | [] => []
  | c :: rest => if c = 10 then 10 :: 32 :: foldValue rest else c :: foldValue rest

theorem foldValue_no_nl (v : ByteStr) (h : ∀ c ∈ v, c ≠ 10) : foldValue v = v := by
  induction v with
  | nil => rfl
  | cons c rest ih =>
      have hc : c ≠ 10 := h c (List.mem_cons_self c rest)
      simp only [foldValue, if_neg hc]
      rw [ih (fun d hd => h d (List.mem_cons_of_mem c hd))]

theorem foldValue_split (a b : ByteStr) (ha : ∀ c ∈ a, c ≠ 10) :
    foldValue (a ++ 10 :: b) = a ++ 10 :: 32 :: foldValue b := by
  induction a with
  | nil => simp [foldValue]
  | cons c rest ih =>
      have hc : c ≠ 10 := ha c (List.mem_cons_self c rest)
      simp only [List.cons_append, foldValue, if_neg hc]
      rw [List.append_eq, ih (fun d hd => ha d (List.mem_cons_of_mem c hd))]

/-- A header field: key and (unfolded) value. -/
abbrev HdrField := ByteStr × ByteStr

/-- One serialized header line (with continuation folding). -/
def serializeField (k v : ByteStr) : ByteStr := k ++ 32 :: foldValue v ++ [10]

/-- Serialized header section of a commit or tag. -/
def serializeHeaders : List HdrField → ByteStr
  | [] => []
  | f :: rest => serializeField f.1 f.2 ++ serializeHeaders rest

/-- A well-formed header key: non-empty, free of space and newline. -/
def wfKey (k : ByteStr) : Bool :=
  !k.isEmpty && k.all (fun c => c ≠ 32 && c ≠ 10)

/-- The header-section parser loop with a field in progress, modelled
on `_parse_message`: a line starting with a space continues the current
field's value; an empty line ends the headers and the rest is the
message. -/
def parseHdrAux : Nat → ByteStr → ByteStr → ByteStr →
    Option (List HdrField × ByteStr)
  | 0, _, _, _ => none
  | fuel + 1, s, k, v =>
      match splitNL s with
      | none => none
      | some (line, rest) =>
          if line = [] then some ([(k, v)], rest)
          else if line.head? = some 32 then
            parseHdrAux fuel rest k (v ++ 10 :: line.tail)
          else
            match splitSP line with
            | none => none
            | some (k2, v2) =>
                (parseHdrAux fuel rest k2 v2).map
                  (fun p => ((k, v) :: p.1, p.2))

/-- Parse the header section: fields (with folded continuations
restored) and the message after the blank line. -/
def parseHeaders (fuel : Nat) (s : ByteStr) : Option (List HdrField × ByteStr) :=
  match splitNL s with
  | none => none
  | some (line, rest) =>
      if line = [] then some ([], rest)
      else if line.head? = some 32 then none
      else
        match splitSP line with
        | none => none
        | some (k, v) => parseHdrAux fuel rest k v

/-- Every byte string either has no newline or splits at its first newline. -/
theorem nl_decomp (b : ByteStr) :
    (∀ c ∈ b, c ≠ 10) ∨
      ∃ a b', b = a ++ 10 :: b' ∧ (∀ c ∈ a, c ≠ 10) := by
  induction b with
  | nil => left; intro c hc; cases hc
  | cons c rest ih =>
      by_cases hc : c = 10
      · right; exact ⟨[], rest, by simp [hc], by intro d hd; cases hd⟩
      · cases ih with
        | inl h =>
            left; intro d hd
            cases hd with
            | head => exact hc
            | tail _ hd => exact h d hd
        | inr h =>
            obtain ⟨a, b', hb, ha⟩ := h
            right
            refine ⟨c :: a, b', by simp [hb], ?_⟩
            intro d hd
            cases hd with
            | head => exact hc
            | tail _ hd => exact ha d hd

/-- Continuation lines: parsing the folded tail of a value restores it. -/
theorem parseHdrAux_cont (fs : List HdrField) (msg : ByteStr)
    (hnext : ∀ (fuel : Nat) (k acc : ByteStr),
      (serializeHeaders fs ++ 10 :: msg).length ≤ fuel →
      parseHdrAux fuel (serializeHeaders fs ++ 10 :: msg) k acc
        = some ((k, acc) :: fs, msg)) :
    ∀ (n : Nat) (b : ByteStr), b.length = n →
      ∀ (fuel : Nat) (k acc : ByteStr),
        (32 :: (foldValue b ++ 10 :: (serializeHeaders fs ++ 10 :: msg))).length ≤ fuel →
        parseHdrAux fuel (32 :: (foldValue b ++ 10 :: (serializeHeaders fs ++ 10 :: msg))) k acc
          = some ((k, acc ++ 10 :: b) :: fs, msg) := by
  intro n
  induction n using Nat.strong_induction_on with
  | _ n ih =>
      intro b hb fuel k acc hf
      rcases fuel with _ | f
      · simp at hf
      cases nl_decomp b with
      | inl hfree =>
          rw [foldValue_no_nl b hfree] at hf ⊢
          have hsplit : splitNL (32 :: (b ++ 10 :: (serializeHeaders fs ++ 10 :: msg)))
              = some (32 :: b, serializeHeaders fs ++ 10 :: msg) := by
            have := splitNL_append (32 :: b) (serializeHeaders fs ++ 10 :: msg)
              (by intro c hc
                  cases hc with
                  | head => decide
                  | tail _ hc => exact hfree c hc)
            simpa using this
          rw [parseHdrAux, hsplit]
          simp only [List.head?, List.tail]
          rw [if_neg (by simp), if_pos trivial]
          have hlen : (serializeHeaders fs ++ 10 :: msg).length ≤ f := by
            simp only [List.length_cons, List.length_append] at hf ⊢
            omega
          rw [hnext f k (acc ++ 10 :: b) hlen]
      | inr hsp =>
          obtain ⟨a, b', hbe, hafree⟩ := hsp
          subst hbe
          rw [foldValue_split a b' hafree] at hf ⊢
          have hre : (a ++ 10 :: 32 :: foldValue b') ++ 10 :: (serializeHeaders fs ++ 10 :: msg)
              = a ++ 10 :: (32 :: (foldValue b' ++ 10 :: (serializeHeaders fs ++ 10 :: msg))) := by
            simp
          rw [hre] at hf ⊢
          have hsplit : splitNL (32 :: (a ++ 10 :: (32 :: (foldValue b' ++ 10 :: (serializeHeaders fs ++ 10 :: msg)))))
              = some (32 :: a, 32 :: (foldValue b' ++ 10 :: (serializeHeaders fs ++ 10 :: msg))) := by
            have := splitNL_append (32 :: a)
              (32 :: (foldValue b' ++ 10 :: (serializeHeaders fs ++ 10 :: msg)))
              (by intro c hc
                  cases hc with
                  | head => decide
                  | tail _ hc => exact hafree c hc)
            simpa using this
          rw [parseHdrAux, hsplit]
          simp only [List.head?, List.tail]
          rw [if_neg (by simp), if_pos trivial]
          have hlb : b'.length < n := by
            subst hb; simp only [List.length_append, List.length_cons]; omega
          have hlen : (32 :: (foldValue b' ++ 10 :: (serializeHeaders fs ++ 10 :: msg))).length ≤ f := by
            simp only [List.length_cons, List.length_append] at hf ⊢
            omega
          rw [ih b'.length hlb b' rfl f k (acc ++ 10 :: a) hlen]
          simp

/-- Parsing the serialized header section with a field in progress
prepends that field. -/
theorem parseHdrAux_fields : ∀ (fs : List HdrField),
    (∀ f ∈ fs, wfKey f.1 = true) →
    ∀ (msg : ByteStr) (fuel : Nat) (k acc : ByteStr),
      (serializeHeaders fs ++ 10 :: msg).length ≤ fuel →
      parseHdrAux fuel (serializeHeaders fs ++ 10 :: msg) k acc
        = some ((k, acc) :: fs, msg) := by
  intro fs
  induction fs with
  | nil =>
      intro _ msg fuel k acc hf
      rcases fuel with _ | f
      · simp at hf
      rw [parseHdrAux]
      simp [splitNL, serializeHeaders]
  | cons hd fs' ih =>
      obtain ⟨k2, v2⟩ := hd
      intro hwf msg fuel k acc hf
      have hk2 : wfKey k2 = true := hwf (k2, v2) (List.mem_cons_self _ _)
      have hk2ne : k2 ≠ [] := by
        intro h; rw [h] at hk2; simp [wfKey] at hk2
      have hk2sp : ∀ c ∈ k2, c ≠ 32 := by
        intro c hc
        have := (List.all_eq_true.mp ((Bool.and_elim_right hk2)) c hc)
        simp at this
        intro h; exact absurd (by exact_mod_cast h) this.1
      have hk2nl : ∀ c ∈ k2, c ≠ 10 := by
        intro c hc
        have := (List.all_eq_true.mp ((Bool.and_elim_right hk2)) c hc)
        simp at this
        intro h; exact absurd (by exact_mod_cast h) this.2
      rcases fuel with _ | f
      · simp at hf
      have hwf' : ∀ f ∈ fs', wfKey f.1 = true := fun f hfm => hwf f (List.mem_cons_of_mem _ hfm)
      set REST := serializeHeaders fs' ++ 10 :: msg with hREST
      cases nl_decomp v2 with
      | inl hfree =>
          have hser : serializeHeaders ((k2, v2) :: fs') ++ 10 :: msg
              = (k2 ++ 32 :: v2) ++ 10 :: REST := by
            simp [serializeHeaders, serializeField, foldValue_no_nl v2 hfree, hREST]
          rw [hser] at hf ⊢
          have hsplit : splitNL ((k2 ++ 32 :: v2) ++ 10 :: REST)
              = some (k2 ++ 32 :: v2, REST) := by
            apply splitNL_append
            intro c hc
            rcases List.mem_append.mp hc with h | h
            · exact hk2nl c h
            · cases h with
              | head => decide
              | tail _ h => exact hfree c h
          rw [parseHdrAux]
          simp only [hsplit]
          obtain ⟨c0, k2t, hk2e⟩ := List.exists_cons_of_ne_nil hk2ne
          have hc0 : c0 ≠ 32 := hk2sp c0 (by rw [hk2e]; exact List.mem_cons_self _ _)
          rw [if_neg (by simp [hk2e])]
          rw [if_neg (by
            simp only [hk2e, List.cons_append, List.head?_cons, Option.some.injEq]
            exact hc0)]
          have hsp : splitSP (k2 ++ 32 :: v2) = some (k2, v2) := splitSP_append k2 v2 hk2sp
          simp only [hsp]
          have hlen : REST.length ≤ f := by
            rw [hREST] at hf ⊢
            simp only [List.length_cons, List.length_append] at hf ⊢
            omega
          rw [ih hwf' msg f k2 v2 hlen]
          rfl
      | inr hsp2 =>
          obtain ⟨a, b', hbe, hafree⟩ := hsp2
          have hser : serializeHeaders ((k2, v2) :: fs') ++ 10 :: msg
              = (k2 ++ 32 :: a) ++ 10 :: (32 :: (foldValue b' ++ 10 :: REST)) := by
            simp [serializeHeaders, serializeField, hbe, foldValue_split a b' hafree, hREST]
          rw [hser] at hf ⊢
          have hsplit : splitNL ((k2 ++ 32 :: a) ++ 10 :: (32 :: (foldValue b' ++ 10 :: REST)))
              = some (k2 ++ 32 :: a, 32 :: (foldValue b' ++ 10 :: REST)) := by
            apply splitNL_append
            intro c hc
            rcases List.mem_append.mp hc with h | h
            · exact hk2nl c h
            · cases h with
              | head => decide
              | tail _ h => exact hafree c h
          rw [parseHdrAux]
          simp only [hsplit]
          obtain ⟨c0, k2t, hk2e⟩ := List.exists_cons_of_ne_nil hk2ne
          have hc0 : c0 ≠ 32 := hk2sp c0 (by rw [hk2e]; exact List.mem_cons_self _ _)
          rw [if_neg (by simp [hk2e])]
          rw [if_neg (by
            simp only [hk2e, List.cons_append, List.head?_cons, Option.some.injEq]
            exact hc0)]
          have hsp : splitSP (k2 ++ 32 :: a) = some (k2, a) :=
            splitSP_append k2 a (fun c hc => hk2sp c hc)
          simp only [hsp]
          have hlen : (32 :: (foldValue b' ++ 10 :: REST)).length ≤ f := by
            simp only [List.length_cons, List.length_append] at hf ⊢
            omega
          rw [parseHdrAux_cont fs' msg (fun fl kk aa hl => ih hwf' msg fl kk aa hl)
            b'.length b' rfl f k2 a hlen]
          simp [hbe]

/-- Round trip of the header section followed by the message. -/
theorem parseHeaders_serializeHeaders (fs : List HdrField) (msg : ByteStr)
    (hwf : ∀ f ∈ fs, wfKey f.1 = true) (fuel : Nat)
    (hf : (serializeHeaders fs ++ 10 :: msg).length ≤ fuel) :
    parseHeaders fuel (serializeHeaders fs ++ 10 :: msg) = some (fs, msg) := by
  cases fs with
  | nil =>
      rw [parseHeaders]
      simp [splitNL, serializeHeaders]
  | cons hd fs' =>
      obtain ⟨k2, v2⟩ := hd
      have hk2 : wfKey k2 = true := hwf (k2, v2) (List.mem_cons_self _ _)
      have hk2ne : k2 ≠ [] := by
        intro h; rw [h] at hk2; simp [wfKey] at hk2
      have hk2sp : ∀ c ∈ k2, c ≠ 32 := by
        intro c hc
        have := (List.all_eq_true.mp ((Bool.and_elim_right hk2)) c hc)
        simp at this
        intro h; exact absurd (by exact_mod_cast h) this.1
      have hk2nl : ∀ c ∈ k2, c ≠ 10 := by
        intro c hc
        have := (List.all_eq_true.mp ((Bool.and_elim_right hk2)) c hc)
        simp at this
        intro h; exact absurd (by exact_mod_cast h) this.2
      have hwf' : ∀ f ∈ fs', wfKey f.1 = true := fun f hfm => hwf f (List.mem_cons_of_mem _ hfm)
      set REST := serializeHeaders fs' ++ 10 :: msg with hREST
      cases nl_decomp v2 with
      | inl hfree =>
          have hser : serializeHeaders ((k2, v2) :: fs') ++ 10 :: msg
              = (k2 ++ 32 :: v2) ++ 10 :: REST := by
            simp [serializeHeaders, serializeField, foldValue_no_nl v2 hfree, hREST]
          rw [hser] at hf ⊢
          have hsplit : splitNL ((k2 ++ 32 :: v2) ++ 10 :: REST)
              = some (k2 ++ 32 :: v2, REST) := by
            apply splitNL_append
            intro c hc
            rcases List.mem_append.mp hc with h | h
            · exact hk2nl c h
            · cases h with
              | head => decide
              | tail _ h => exact hfree c h
          rw [parseHeaders]
          simp only [hsplit]
          obtain ⟨c0, k2t, hk2e⟩ := List.exists_cons_of_ne_nil hk2ne
          have hc0 : c0 ≠ 32 := hk2sp c0 (by rw [hk2e]; exact List.mem_cons_self _ _)
          rw [if_neg (by simp [hk2e])]
          rw [if_neg (by
            simp only [hk2e, List.cons_append, List.head?_cons, Option.some.injEq]
            exact hc0)]
          simp only [splitSP_append k2 v2 hk2sp]
          have hlen : REST.length ≤ fuel := by
            rw [hREST] at hf ⊢
            simp only [List.length_cons, List.length_append] at hf ⊢
            omega
          exact parseHdrAux_fields fs' hwf' msg fuel k2 v2 hlen
      | inr hsp2 =>
          obtain ⟨a, b', hbe, hafree⟩ := hsp2
          have hser : serializeHeaders ((k2, v2) :: fs') ++ 10 :: msg
              = (k2 ++ 32 :: a) ++ 10 :: (32 :: (foldValue b' ++ 10 :: REST)) := by
            simp [serializeHeaders, serializeField, hbe, foldValue_split a b' hafree, hREST]
          rw [hser] at hf ⊢
          have hsplit : splitNL ((k2 ++ 32 :: a) ++ 10 :: (32 :: (foldValue b' ++ 10 :: REST)))
              = some (k2 ++ 32 :: a, 32 :: (foldValue b' ++ 10 :: REST)) := by
            apply splitNL_append
            intro c hc
            rcases List.mem_append.mp hc with h | h
            · exact hk2nl c h
            · cases h with
              | head => decide
              | tail _ h => exact hafree c h
          rw [parseHeaders]
          simp only [hsplit]
          obtain ⟨c0, k2t, hk2e⟩ := List.exists_cons_of_ne_nil hk2ne
          have hc0 : c0 ≠ 32 := hk2sp c0 (by rw [hk2e]; exact List.mem_cons_self _ _)
          rw [if_neg (by simp [hk2e])]
          rw [if_neg (by
            simp only [hk2e, List.cons_append, List.head?_cons, Option.some.injEq]
            exact hc0)]
          simp only [splitSP_append k2 a (fun c hc => hk2sp c hc)]
          have hlen : (32 :: (foldValue b' ++ 10 :: REST)).length ≤ fuel := by
            simp only [List.length_cons, List.length_append] at hf ⊢
            omega
          rw [parseHdrAux_cont fs' msg
            (fun fl kk aa hl => parseHdrAux_fields fs' hwf' msg fl kk aa hl)
            b'.length b' rfl fuel k2 a hlen]
          simp [hbe]

/-- Base-`b` numeral writer with fuel (digits `0`-`9` as ASCII); canonical:
no leading zeros, empty for `0`. -/
def radixF (base : Nat) : Nat → Nat → ByteStr
  | 0, _ => []
  | f + 1, n => if n = 0 then [] else radixF base f (n / base) ++ [48 + n % base]

/-- Base-`b` numeral reader (accumulator form). -/
def parseRadix (base : Nat) (s : ByteStr) (acc : Nat) : Nat :=
  s.foldl (fun a c => a * base + (c - 48)) acc

theorem parseRadix_radixF (base : Nat) (hb : 2 ≤ base) :
    ∀ (f n acc : Nat), n ≤ f →
      parseRadix base (radixF base f n) acc
        = acc * base ^ (radixF base f n).length + n := by
  intro f
  induction f with
  | zero =>
      intro n acc hn
      have : n = 0 := Nat.le_zero.mp hn
      subst this
      simp [radixF, parseRadix]
  | succ f ih =>
      intro n acc hn
      by_cases hz : n = 0
      · subst hz; simp [radixF, parseRadix]
      · rw [radixF, if_neg hz]
        have hdiv : n / base ≤ f := by
          have := Nat.div_lt_self (Nat.pos_of_ne_zero hz) hb
          omega
        have hrec := ih (n / base) acc hdiv
        unfold parseRadix at hrec ⊢
        rw [List.foldl_append, hrec]
        simp only [List.foldl, List.length_append, List.length_cons, List.length_nil]
        have hmod : 48 + n % base - 48 = n % base := by omega
        rw [hmod, pow_succ]
        have hdm : base * (n / base) + n % base = n := Nat.div_add_mod n base
        calc (acc * base ^ (radixF base f (n / base)).length + n / base) * base + n % base
            = acc * (base ^ (radixF base f (n / base)).length * base)
              + (base * (n / base) + n % base) := by ring
          _ = acc * (base ^ (radixF base f (n / base)).length * base) + n := by rw [hdm]

theorem radixF_mem (base : Nat) (hb : base ≤ 10) (hb2 : 2 ≤ base) :
    ∀ (f n : Nat), ∀ c ∈ radixF base f n, 48 ≤ c ∧ c < 58 := by
  intro f
  induction f with
  | zero => intro n c hc; simp [radixF] at hc
  | succ f ih =>
      intro n c hc
      rw [radixF] at hc
      by_cases hz : n = 0
      · rw [if_pos hz] at hc; cases hc
      · rw [if_neg hz] at hc
        rcases List.mem_append.mp hc with h | h
        · exact ih (n / base) c h
        · have hce : c = 48 + n % base := by simpa using h
          have hm := Nat.mod_lt n (show 0 < base by omega)
          omega

/-- Decimal rendering of a length, as `str(n)` (`"0"` for zero). -/
def decRepr (n : Nat) : ByteStr := if n = 0 then [48] else radixF 10 n n

/-- Octal rendering of a tree-entry mode, as `"%o" % n`. -/
def octRepr (n : Nat) : ByteStr := if n = 0 then [48] else radixF 8 n n

theorem parseRadix_decRepr (n : Nat) : parseRadix 10 (decRepr n) 0 = n := by
  by_cases hz : n = 0
  · subst hz; simp [decRepr, parseRadix]
  · rw [decRepr, if_neg hz, parseRadix_radixF 10 (by omega) n n 0 le_rfl]
    simp

theorem parseRadix_octRepr (n : Nat) : parseRadix 8 (octRepr n) 0 = n := by
  by_cases hz : n = 0
  · subst hz; simp [octRepr, parseRadix]
  · rw [octRepr, if_neg hz, parseRadix_radixF 8 (by omega) n n 0 le_rfl]
    simp

theorem decRepr_mem (n : Nat) : ∀ c ∈ decRepr n, 48 ≤ c ∧ c < 58 := by
  intro c hc
  rw [decRepr] at hc
  by_cases hz : n = 0
  · rw [if_pos hz] at hc; simp at hc; omega
  · rw [if_neg hz] at hc; exact radixF_mem 10 le_rfl (by omega) n n c hc

theorem octRepr_mem (n : Nat) : ∀ c ∈ octRepr n, 48 ≤ c ∧ c < 58 := by
  intro c hc
  rw [octRepr] at hc
  by_cases hz : n = 0
  · rw [if_pos hz] at hc; simp at hc; omega
  · rw [if_neg hz] at hc; exact radixF_mem 8 (by omega) (by omega) n n c hc

/-- A tree entry: mode, name, 20-byte binary OID. -/
abbrev TreeEnt := Nat × ByteStr × ByteStr

/-- `serialize_tree`: each entry is `<octal-mode> <name>\0<20-byte-sha>`. -/
def serialize_tree : List TreeEnt → ByteStr
  | [] => []
  | (m, name, sha) :: rest =>
      octRepr m ++ 32 :: (name ++ 0 :: (sha ++ serialize_tree rest))

/-- `parse_tree` with fuel: mode up to the space, name up to the NUL,
then exactly 20 OID bytes, repeated to the end of the body. -/
def parseTreeF : Nat → ByteStr → Option (List TreeEnt)
  | 0, s => if s = [] then some [] else none
  | f + 1, s =>
      if s = [] then some []
      else
        match splitSP s with
        | none => none
        | some (modeS, rest1) =>
            match splitNUL rest1 with
            | none => none
            | some (name, rest2) =>
                if rest2.length < 20 then none
                else
                  (parseTreeF f (rest2.drop 20)).map
                    (fun es => (parseRadix 8 modeS 0, name, rest2.take 20) :: es)

/-- `parse_tree` on a full body. -/
def parse_tree (s : ByteStr) : Option (List TreeEnt) := parseTreeF s.length s

/-- Well-formed tree entry: a NUL-free name and a 20-byte OID. -/
def wfTreeEnt (e : TreeEnt) : Bool :=
  e.2.1.all (fun c => decide (c ≠ 0)) && e.2.2.length == 20

theorem parseTreeF_serialize_tree :
    ∀ (es : List TreeEnt) (fuel : Nat), es.all wfTreeEnt = true →
      (serialize_tree es).length ≤ fuel →
      parseTreeF fuel (serialize_tree es) = some es := by
  intro es
  induction es with
  | nil =>
      intro fuel _ _
      cases fuel <;> simp [parseTreeF, serialize_tree]
  | cons e rest ih =>
      obtain ⟨m, name, sha⟩ := e
      intro fuel hwf hf
      have hwfe : wfTreeEnt (m, name, sha) = true := by
        have := List.all_eq_true.mp hwf (m, name, sha) (List.mem_cons_self _ _)
        exact this
      have hname : ∀ c ∈ name, c ≠ 0 := by
        intro c hc
        have := List.all_eq_true.mp (Bool.and_elim_left hwfe) c hc
        simpa using this
      have hsha : sha.length = 20 := by
        have := Bool.and_elim_right hwfe
        simpa [wfTreeEnt] using this
      have hwfr : rest.all wfTreeEnt = true := by
        rw [List.all_eq_true] at hwf ⊢
        exact fun x hx => hwf x (List.mem_cons_of_mem _ hx)
      have hser : serialize_tree ((m, name, sha) :: rest)
          = octRepr m ++ 32 :: (name ++ 0 :: (sha ++ serialize_tree rest)) := rfl
      have hne : serialize_tree ((m, name, sha) :: rest) ≠ [] := by
        rw [hser]
        intro h
        have := congrArg List.length h
        simp [List.length_append] at this
      rcases fuel with _ | f
      · exact absurd (List.length_eq_zero.mp (Nat.le_zero.mp hf)) hne
      rw [parseTreeF, if_neg hne, hser]
      have hsp : splitSP (octRepr m ++ 32 :: (name ++ 0 :: (sha ++ serialize_tree rest)))
          = some (octRepr m, name ++ 0 :: (sha ++ serialize_tree rest)) := by
        apply splitSP_append
        intro c hc
        have := octRepr_mem m c hc
        omega
      simp only [hsp]
      have hnul : splitNUL (name ++ 0 :: (sha ++ serialize_tree rest))
          = some (name, sha ++ serialize_tree rest) := splitNUL_append name _ hname
      simp only [hnul]
      have hlen20 : ¬((sha ++ serialize_tree rest).length < 20) := by
        simp [List.length_append, hsha]
      rw [if_neg hlen20]
      have hdrop : (sha ++ serialize_tree rest).drop 20 = serialize_tree rest := by
        rw [← hsha]; exact List.drop_left sha _
      have htake : (sha ++ serialize_tree rest).take 20 = sha := by
        rw [← hsha]; exact List.take_left sha _
      have hfl : (serialize_tree rest).length ≤ f := by
        rw [hser] at hf
        simp only [List.length_append, List.length_cons] at hf ⊢
        omega
      rw [hdrop, htake, ih f hwfr hfl, parseRadix_octRepr]
      rfl

/-- The Git object model: blob, tree, commit, tag (`ShaFile` subclasses). -/
inductive GitObject
  | blob (data : ByteStr)
  | tree (entries : List TreeEnt)
  | commit (fields : List HdrField) (message : ByteStr)
  | tag (fields : List HdrField) (message : ByteStr)
  deriving DecidableEq

/-- `type_num` of each object class (objects.py). -/
def typeNum : GitObject → Nat
  | .commit _ _ => 1
  | .tree _ => 2
  | .blob _ => 3
  | .tag _ _ => 4

/-- `type_name` bytes for each `type_num`. -/
def typeNameOfNum (t : Nat) : ByteStr :=
  if t = 1 then [99, 111, 109, 109, 105, 116]
  else if t = 2 then [116, 114, 101, 101]
  else if t = 3 then [98, 108, 111, 98]
  else if t = 4 then [116, 97, 103]
  else []

/-- Inverse of `typeNameOfNum` (`object_class` on a type name). -/
def typeNumOfName (n : ByteStr) : Option Nat :=
  if n = [99, 111, 109, 109, 105, 116] then some 1
  else if n = [116, 114, 101, 101] then some 2
  else if n = [98, 108, 111, 98] then some 3
  else if n = [116, 97, 103] then some 4
  else none

/-- `as_raw_string`: the canonical body of an object. -/
def as_raw_string : GitObject → ByteStr
  | .blob d => d
  | .tree es => serialize_tree es
  | .commit fs msg => serializeHeaders fs ++ 10 :: msg
  | .tag fs msg => serializeHeaders fs ++ 10 :: msg

/-- `ShaFile.from_raw_string`: dispatch on `type_num` and deserialize
the body. -/
def from_raw_string (t : Nat) (body : ByteStr) : Option GitObject :=
  if t = 1 then (parseHeaders body.length body).map (fun p => .commit p.1 p.2)
  else if t = 2 then (parse_tree body).map .tree
  else if t = 3 then some (.blob body)
  else if t = 4 then (parseHeaders body.length body).map (fun p => .tag p.1 p.2)
  else none

/-- `object_header`: `<type-name> <decimal-length>\0`. -/
def object_header (t len : Nat) : ByteStr :=
  typeNameOfNum t ++ 32 :: decRepr len ++ [0]

/-- The framed loose encoding: header then body. -/
def framedString (o : GitObject) : ByteStr :=
  object_header (typeNum o) (as_raw_string o).length ++ as_raw_string o

/-- `_parse_legacy_object`: split the framed encoding at the first NUL,
read `<type-name> <decimal-length>`, check the length, deserialize. -/
def parseFramed (s : ByteStr) : Option GitObject :=
  match splitNUL s with
  | none => none
  | some (hdr, body) =>
      match splitSP hdr with
      | none => none
      | some (tyName, lenS) =>
          match typeNumOfName tyName with
          | none => none
          | some t =>
              if parseRadix 10 lenS 0 = body.length then from_raw_string t body
              else none

/-- `ShaFile.sha`: the digest of the object header followed by the raw
body chunks, for an arbitrary digest function. -/
def shaOf (hash : ByteStr → ByteStr) (o : GitObject) : ByteStr :=
  hash (object_header (typeNum o) (as_raw_string o).length ++ as_raw_string o)

/-- Serializable (well-formed) object: NUL-free names and 20-byte OIDs
in trees; well-formed header keys in commits and tags. -/
def wfObject : GitObject → Bool
  | .blob _ => true
  | .tree es => es.all wfTreeEnt
  | .commit fs _ => fs.all (fun f => wfKey f.1)
  | .tag fs _ => fs.all (fun f => wfKey f.1)

theorem from_raw_string_as_raw_string (o : GitObject) (hwf : wfObject o = true) :
    from_raw_string (typeNum o) (as_raw_string o) = some o := by
  cases o with
  | blob d => rfl
  | tree es =>
      have hall : es.all wfTreeEnt = true := hwf
      have h := parseTreeF_serialize_tree es (serialize_tree es).length hall le_rfl
      simp only [typeNum, as_raw_string, from_raw_string, parse_tree]
      rw [if_pos trivial, h]
      rfl
  | commit fs msg =>
      have hall : fs.all (fun f => wfKey f.1) = true := hwf
      have h := parseHeaders_serializeHeaders fs msg
        (fun f hfm => List.all_eq_true.mp hall f hfm)
        (serializeHeaders fs ++ 10 :: msg).length le_rfl
      simp only [typeNum, as_raw_string, from_raw_string]
      rw [if_pos trivial, h]
      rfl
  | tag fs msg =>
      have hall : fs.all (fun f => wfKey f.1) = true := hwf
      have h := parseHeaders_serializeHeaders fs msg
        (fun f hfm => List.all_eq_true.mp hall f hfm)
        (serializeHeaders fs ++ 10 :: msg).length le_rfl
      simp only [typeNum, as_raw_string, from_raw_string]
      rw [if_pos trivial, h]
      rfl

theorem typeNameOfNum_mem (o : GitObject) :
    ∀ c ∈ typeNameOfNum (typeNum o), 97 ≤ c ∧ c ≤ 122 := by
  cases o <;> intro c hc <;> simp [typeNum, typeNameOfNum] at hc <;> rcases hc with h | h | h | h | h | h <;> omega

theorem typeNumOfName_typeNameOfNum (o : GitObject) :
    typeNumOfName (typeNameOfNum (typeNum o)) = some (typeNum o) := by
  cases o <;> rfl

theorem parseFramed_framedString (o : GitObject) (hwf : wfObject o = true) :
    parseFramed (framedString o) = some o := by
  have hre : framedString o
      = (typeNameOfNum (typeNum o) ++ 32 :: decRepr (as_raw_string o).length)
          ++ 0 :: as_raw_string o := by
    simp [framedString, object_header]
  rw [parseFramed, hre]
  have hnul : splitNUL ((typeNameOfNum (typeNum o) ++ 32 :: decRepr (as_raw_string o).length)
      ++ 0 :: as_raw_string o)
      = some (typeNameOfNum (typeNum o) ++ 32 :: decRepr (as_raw_string o).length,
          as_raw_string o) := by
    apply splitNUL_append
    intro c hc
    rcases List.mem_append.mp hc with h | h
    · have := typeNameOfNum_mem o c h
      omega
    · cases h with
      | head => omega
      | tail _ h =>
          have := decRepr_mem (as_raw_string o).length c h
          omega
  simp only [hnul]
  have hsp : splitSP (typeNameOfNum (typeNum o) ++ 32 :: decRepr (as_raw_string o).length)
      = some (typeNameOfNum (typeNum o), decRepr (as_raw_string o).length) := by
    apply splitSP_append
    intro c hc
    have := typeNameOfNum_mem o c hc
    omega
  simp only [hsp]
  simp only [typeNumOfName_typeNameOfNum o]
  rw [if_pos (parseRadix_decRepr _)]
  exact from_raw_string_as_raw_string o hwf

/-- C1: for every serializable object `o` (blob, tree, commit or tag),
deserializing the serialization of `o` — both through the framed loose
encoding and through `from_raw_string` on the raw body — yields `o`
itself, and `ShaFile.sha` digests exactly the framed serialization
`<type> <decimal-length>\0<body>`, so the OID equals the digest of the
framed encoding. -/
theorem parse_serialize_sha_roundtrip (hash : ByteStr → ByteStr) (o : GitObject)
    (hwf : wfObject o = true) :
    parseFramed (framedString o) = some o ∧
    from_raw_string (typeNum o) (as_raw_string o) = some o ∧
    shaOf hash o = hash (framedString o) :=
  ⟨parseFramed_framedString o hwf, from_raw_string_as_raw_string o hwf, rfl⟩

theorem parse_serialize_sha_roundtrip_witness :
    wfObject (GitObject.commit [([116, 114, 101, 101], [48, 49]), ([97], [65, 10, 66])]
      [104, 105]) = true ∧
    (parseFramed (framedString (GitObject.commit
        [([116, 114, 101, 101], [48, 49]), ([97], [65, 10, 66])] [104, 105]))
      = some (GitObject.commit
        [([116, 114, 101, 101], [48, 49]), ([97], [65, 10, 66])] [104, 105]) ∧
    from_raw_string (typeNum (GitObject.commit
        [([116, 114, 101, 101], [48, 49]), ([97], [65, 10, 66])] [104, 105]))
        (as_raw_string (GitObject.commit
          [([116, 114, 101, 101], [48, 49]), ([97], [65, 10, 66])] [104, 105]))
      = some (GitObject.commit
        [([116, 114, 101, 101], [48, 49]), ([97], [65, 10, 66])] [104, 105]) ∧
    shaOf (fun s => s) (GitObject.commit
        [([116, 114, 101, 101], [48, 49]), ([97], [65, 10, 66])] [104, 105])
      = (fun s => s) (framedString (GitObject.commit
        [([116, 114, 101, 101], [48, 49]), ([97], [65, 10, 66])] [104, 105]))) :=
  ⟨by decide, parse_serialize_sha_roundtrip (fun s => s)
    (GitObject.commit [([116, 114, 101, 101], [48, 49]), ([97], [65, 10, 66])] [104, 105])
    (by decide)⟩
